import Mathlib

/-!
Verification of the tap-mongodb replication core.

This file embeds, in Lean, the data model and the operations of the
tap-mongodb repository that its specification talks about: the
IncrementalId codec and the ObjectId model (`tap_mongodb/types.py`), the
document sanitizer (`tap_mongodb/utils.py`), the incremental and the
log-based record readers (`tap_mongodb/streams.py`), and a heap model for
the mutation behaviour of the two document-rewriting helpers.  Machine
integers are modelled as `Nat`/`Int`, Python floats as a four-way sum,
fallible Python code as `Option`/`Except`, and the change stream as a
trace of poll outcomes.
-/

set_option maxHeartbeats 1600000
set_option maxRecDepth 40000

namespace TapMongo

/-- Model of a Python float value: a finite rational or one of the three
non-finite doubles. -/
inductive PyFloat where
  | finite (q : Rat)
  | inf
  | negInf
  | nan
deriving DecidableEq

/-- Model of a Python `datetime.datetime` at second precision.  `tzUtc`
records whether the value is timezone-aware with a UTC offset of zero,
the only kind of aware datetime this program constructs. -/
structure PyDatetime where
  year : Nat
  month : Nat
  day : Nat
  hour : Nat
  minute : Nat
  second : Nat
  tzUtc : Bool
deriving DecidableEq

/-- Gregorian leap-year rule. -/
def isLeapYear (y : Nat) : Bool := y % 4 == 0 && (y % 100 != 0 || y % 400 == 0)

/-- Number of days of month `m` (1-12) in a leap or a non-leap year. -/
def daysInMonth (leap : Bool) (m : Nat) : Nat :=
  if m = 2 then (if leap then 29 else 28)
  else if m = 4 ∨ m = 6 ∨ m = 9 ∨ m = 11 then 30
  else 31

/-- Number of days of year `y`. -/
def daysInYear (y : Nat) : Nat := if isLeapYear y then 366 else 365

/-- Decimal digit character of `n % 10`. -/
def digitChar (n : Nat) : Char :=
  match n % 10 with
  | 0 => '0' | 1 => '1' | 2 => '2' | 3 => '3' | 4 => '4'
  | 5 => '5' | 6 => '6' | 7 => '7' | 8 => '8' | _ => '9'

/-- Two-digit zero-padded decimal rendering (of `n % 100`). -/
def pad2 (n : Nat) : List Char := [digitChar (n / 10), digitChar n]

/-- Four-digit zero-padded decimal rendering (of `n % 10000`). -/
def pad4 (n : Nat) : List Char := pad2 (n / 100) ++ pad2 n

/-- The date part of `datetime.isoformat`. -/
def dateChars (y m d : Nat) : List Char := pad4 y ++ '-' :: pad2 m ++ '-' :: pad2 d

/-- The time part of `datetime.isoformat`. -/
def timeChars (h mi s : Nat) : List Char := pad2 h ++ ':' :: pad2 mi ++ ':' :: pad2 s

/-- Characters of `datetime.isoformat()`: date, `T`, time, and a
`+00:00` suffix exactly when the value is UTC-aware. -/
def isoChars (d : PyDatetime) : List Char :=
  dateChars d.year d.month d.day ++ 'T' :: timeChars d.hour d.minute d.second
    ++ (if d.tzUtc then ('+' :: '0' :: '0' :: ':' :: '0' :: '0' :: []) else [])

/-- String form of `datetime.isoformat()`. -/
def PyDatetime.isoformat (d : PyDatetime) : String := ⟨isoChars d⟩

/-- Step off whole years from a day count, starting at year `y`; the fuel
makes the recursion structural and any fuel at least the day count gives
the fixed point. -/
def yearFromAux : Nat → Nat → Nat → Nat × Nat
  | 0, y, n => (y, n)
  | fuel + 1, y, n =>
    if n < daysInYear y then (y, n) else yearFromAux fuel (y + 1) (n - daysInYear y)

/-- Year and day-of-year reached `n` days after 1970-01-01 (when started
at `y = 1970`). -/
def yearFrom (y n : Nat) : Nat × Nat := yearFromAux (n + 1) y n

/-- Step off whole months from a day-of-year count. -/
def monthFromAux (leap : Bool) : Nat → Nat → Nat → Nat × Nat
  | 0, m, doy => (m, doy)
  | fuel + 1, m, doy =>
    if doy < daysInMonth leap m then (m, doy)
    else monthFromAux leap fuel (m + 1) (doy - daysInMonth leap m)

/-- Month (1-12) and zero-based day-of-month of a zero-based day-of-year. -/
def monthFrom (leap : Bool) (doy : Nat) : Nat × Nat := monthFromAux leap 11 1 doy

/-- Date and time reached `ts` seconds after the Unix epoch, as computed
by `datetime.fromtimestamp(ts, utc)` on the proleptic Gregorian
calendar. -/
def datetimeFromTimestamp (ts : Nat) : PyDatetime :=
  let days := ts / 86400
  let sec := ts % 86400
  let yd := yearFrom 1970 days
  let md := monthFrom (isLeapYear yd.1) yd.2
  ⟨yd.1, md.1, md.2 + 1, sec / 3600, sec % 3600 / 60, sec % 60, true⟩

/-- Days from 1970-01-01 to the first day of year `y` (for `y ≥ 1970`). -/
def daysBeforeYear (y : Nat) : Nat :=
  (List.range (y - 1970)).foldl (fun acc i => acc + daysInYear (1970 + i)) 0

/-- Days from the first day of the year to the first day of month `m`. -/
def daysBeforeMonth (leap : Bool) (m : Nat) : Nat :=
  (List.range (m - 1)).foldl (fun acc i => acc + daysInMonth leap (1 + i)) 0

/-- Seconds since the Unix epoch of a datetime, treated as UTC whether it
is aware or naive, matching how `ObjectId.from_datetime` timestamps a
datetime; meaningful for years from 1970 on. -/
def PyDatetime.timestamp (d : PyDatetime) : Nat :=
  (daysBeforeYear d.year + daysBeforeMonth (isLeapYear d.year) d.month + (d.day - 1)) * 86400
    + d.hour * 3600 + d.minute * 60 + d.second

/-- Model of a BSON ObjectId: twelve bytes, the first four being a
big-endian POSIX timestamp (`tap_mongodb` only ever observes it through
its hex string, its generation time and its ordering). -/
structure ObjectId where
  bytes : List Nat
deriving DecidableEq

/-- Well-formedness of the byte list behind an ObjectId. -/
def ObjectId.wf (o : ObjectId) : Prop := o.bytes.length = 12 ∧ ∀ b ∈ o.bytes, b < 256

instance (o : ObjectId) : Decidable o.wf := by
  unfold ObjectId.wf; infer_instance

/-- Big-endian byte-list value. -/
def bytesToNat (bs : List Nat) : Nat := bs.foldl (fun acc b => acc * 256 + b) 0

/-- The four leading timestamp bytes of an ObjectId, as a number. -/
def ObjectId.timestamp (o : ObjectId) : Nat := bytesToNat (o.bytes.take 4)

/-- bson `ObjectId.generation_time`: the embedded timestamp as an aware
UTC datetime. -/
def ObjectId.generation_time (o : ObjectId) : PyDatetime :=
  datetimeFromTimestamp o.timestamp

/-- Lowercase hex digit character of `n % 16`. -/
def hexDigitChar (n : Nat) : Char :=
  match n % 16 with
  | 0 => '0' | 1 => '1' | 2 => '2' | 3 => '3' | 4 => '4'
  | 5 => '5' | 6 => '6' | 7 => '7' | 8 => '8' | 9 => '9'
  | 10 => 'a' | 11 => 'b' | 12 => 'c' | 13 => 'd' | 14 => 'e' | _ => 'f'

/-- Two lowercase hex characters of one byte. -/
def byteHexChars (b : Nat) : List Char := [hexDigitChar (b / 16), hexDigitChar b]

/-- Lowercase hex characters of a byte list. -/
def bytesHexChars : List Nat → List Char
  | [] => []
  | b :: rest => byteHexChars b ++ bytesHexChars rest

/-- `str(ObjectId)`: 24 lowercase hex characters. -/
def ObjectId.str (o : ObjectId) : String := ⟨bytesHexChars o.bytes⟩

/-- Value of one hex character, either case, as bson ObjectId validation
accepts it. -/
def hexVal? (c : Char) : Option Nat :=
  if c.isDigit then some (c.toNat - 48)
  else if 'a' ≤ c ∧ c ≤ 'f' then some (c.toNat - 87)
  else if 'A' ≤ c ∧ c ≤ 'F' then some (c.toNat - 55)
  else none

/-- Bytes of a hex character list taken two characters at a time. -/
def hexPairsToBytes : List Char → Option (List Nat)
  | [] => some []
  | c1 :: c2 :: rest => do
    let h1 ← hexVal? c1
    let h2 ← hexVal? c2
    let bs ← hexPairsToBytes rest
    some ((h1 * 16 + h2) :: bs)
  | _ => none

/-- The `ObjectId(oid)` string constructor: accepts exactly 24 hex
characters, raising (here `none`) otherwise. -/
def ObjectId.ofHex (s : String) : Option ObjectId :=
  if s.length = 24 then (hexPairsToBytes s.toList).map ObjectId.mk else none

/-- bson `ObjectId.from_datetime`: four big-endian timestamp bytes
followed by eight zero bytes.  Pre-epoch or out-of-range datetimes make
the underlying `struct.pack` raise, modelled as `none`. -/
def ObjectId.from_datetime (d : PyDatetime) : Option ObjectId :=
  if 1970 ≤ d.year ∧ d.timestamp < 4294967296 then
    some ⟨[d.timestamp / 16777216 % 256, d.timestamp / 65536 % 256,
           d.timestamp / 256 % 256, d.timestamp % 256, 0, 0, 0, 0, 0, 0, 0, 0]⟩
  else none

/-- Model of the `IncrementalId` class of `tap_mongodb/types.py`: a
datetime part and an optional ObjectId hex-string part. -/
structure IncrementalId where
  dt : PyDatetime
  objectIdPart : Option String
deriving DecidableEq

/-- Result of matching `IncrementalId.PATTERN`: the characters of the
`dt` group, whether the optional time half matched, and the characters
of the optional `oid` group. -/
structure IncrementalIdMatch where
  dtChars : List Char
  timePresent : Bool
  oidChars : Option (List Char)
deriving DecidableEq

/-- Take exactly `n` ASCII digits off the front of a character list. -/
def takeDigits : Nat → List Char → Option (List Char × List Char)
  | 0, cs => some ([], cs)
  | _ + 1, [] => none
  | n + 1, c :: cs =>
    if c.isDigit then (takeDigits n cs).map (fun p => (c :: p.1, p.2)) else none

/-- Consume one expected character. -/
def expectChar (c : Char) : List Char → Option (List Char)
  | [] => none
  | x :: xs => if x = c then some xs else none

/-- Consume a run of expected characters. -/
def expectChars : List Char → List Char → Option (List Char)
  | [], cs => some cs
  | e :: es, cs => (expectChar e cs).bind (expectChars es)

/-- A character admitted by the `[a-f0-9]` class of the pattern. -/
def isLowerHexDigit (c : Char) : Bool := c.isDigit || ('a' ≤ c && c ≤ 'f')

/-- Take exactly `n` lowercase-hex characters off the front. -/
def takeLowerHex : Nat → List Char → Option (List Char × List Char)
  | 0, cs => some ([], cs)
  | _ + 1, [] => none
  | n + 1, c :: cs =>
    if isLowerHexDigit c then (takeLowerHex n cs).map (fun p => (c :: p.1, p.2)) else none

/-- The `$` anchor of the pattern: end of string, or just before one
final newline. -/
def atEndAnchor (cs : List Char) : Bool := cs = [] || cs = ['\n']

/-- The optional `T\d\d:\d\d:\d\d+00:00` half of the `dt` group. -/
def matchTimePart : List Char → Option (List Char × List Char)
  | 'T' :: cs1 => do
    let (h, cs2) ← takeDigits 2 cs1
    let cs3 ← expectChar ':' cs2
    let (mi, cs4) ← takeDigits 2 cs3
    let cs5 ← expectChar ':' cs4
    let (s, cs6) ← takeDigits 2 cs5
    let cs7 ← expectChars ['+', '0', '0', ':', '0', '0'] cs6
    some ('T' :: (h ++ ':' :: (mi ++ ':' :: (s ++ ['+', '0', '0', ':', '0', '0']))), cs7)
  | _ => none

/-- `re.match` of `IncrementalId.PATTERN`.  Digits are modelled as ASCII
digits: the non-ASCII Unicode digits that Python `\d` would also admit
are rejected anyway by `datetime.fromisoformat` inside `from_string`,
with the same observable outcome for `from_string`.  The alternatives
of the pattern are disjoint on their first character, so this
deterministic reading agrees with the backtracking regex engine. -/
def IncrementalId.patternMatch (s : String) : Option IncrementalIdMatch := do
  let (y, cs1) ← takeDigits 4 s.toList
  let cs2 ← expectChar '-' cs1
  let (mo, cs3) ← takeDigits 2 cs2
  let cs4 ← expectChar '-' cs3
  let (d, cs5) ← takeDigits 2 cs4
  let dchars := y ++ '-' :: (mo ++ '-' :: d)
  match matchTimePart cs5 with
  | some (t, cs6) =>
    match cs6 with
    | '|' :: cs7 => do
      let (oid, cs8) ← takeLowerHex 24 cs7
      if atEndAnchor cs8 then some ⟨dchars ++ t, true, some oid⟩ else none
    | _ => if atEndAnchor cs6 then some ⟨dchars ++ t, true, none⟩ else none
  | none =>
    match cs5 with
    | '|' :: cs7 => do
      let (oid, cs8) ← takeLowerHex 24 cs7
      if atEndAnchor cs8 then some ⟨dchars, false, some oid⟩ else none
    | _ => if atEndAnchor cs5 then some ⟨dchars, false, none⟩ else none

/-- Numeric value of a run of ASCII digit characters. -/
def digitsToNat (cs : List Char) : Nat := cs.foldl (fun acc c => acc * 10 + (c.toNat - 48)) 0

/-- Model of `datetime.fromisoformat` restricted to the two shapes the
`IncrementalId` regex can produce: a date, or a date with a time and a
`+00:00` offset; calendar ranges are validated as Python validates
them. -/
def fromisoformatModel (cs : List Char) : Option PyDatetime := do
  let (yc, cs1) ← takeDigits 4 cs
  let cs2 ← expectChar '-' cs1
  let (mc, cs3) ← takeDigits 2 cs2
  let cs4 ← expectChar '-' cs3
  let (dc, cs5) ← takeDigits 2 cs4
  let y := digitsToNat yc
  let m := digitsToNat mc
  let d := digitsToNat dc
  if 1 ≤ y ∧ 1 ≤ m ∧ m ≤ 12 ∧ 1 ≤ d ∧ d ≤ daysInMonth (isLeapYear y) m then
    match cs5 with
    | [] => some ⟨y, m, d, 0, 0, 0, false⟩
    | _ => do
      let cs6 ← expectChar 'T' cs5
      let (hc, cs7) ← takeDigits 2 cs6
      let cs8 ← expectChar ':' cs7
      let (mic, cs9) ← takeDigits 2 cs8
      let cs10 ← expectChar ':' cs9
      let (sc, cs11) ← takeDigits 2 cs10
      let cs12 ← expectChars ['+', '0', '0', ':', '0', '0'] cs11
      let h := digitsToNat hc
      let mi := digitsToNat mic
      let s := digitsToNat sc
      if cs12 = [] ∧ h ≤ 23 ∧ mi ≤ 59 ∧ s ≤ 59 then
        some ⟨y, m, d, h, mi, s, true⟩
      else none
  else none

/-- `IncrementalId.from_string`: match the pattern, parse the datetime
half with `fromisoformat`, keep the optional oid group.  A failed match
or parse raises `ValueError`, modelled as `none`. -/
def IncrementalId.from_string (s : String) : Option IncrementalId := do
  let m ← IncrementalId.patternMatch s
  let d ← fromisoformatModel m.dtChars
  some ⟨d, m.oidChars.map (fun cs => ⟨cs⟩)⟩

/-- `IncrementalId.__str__`: isoformat of the datetime part, then the
separator and the ObjectId hex part when that is present and non-empty
(Python truthiness). -/
def IncrementalId.toStr (i : IncrementalId) : String :=
  ⟨isoChars i.dt ++ (match i.objectIdPart with
    | some o => if o = "" then [] else '|' :: o.toList
    | none => [])⟩

/-- `IncrementalId.from_object_id`: datetime from the generation time,
oid part from the hex string. -/
def IncrementalId.from_object_id (o : ObjectId) : IncrementalId :=
  ⟨o.generation_time, some o.str⟩

/-- The `IncrementalId.object_id` property: parse the stored hex when
present, otherwise synthesize an ObjectId from the datetime part. -/
def IncrementalId.object_id (i : IncrementalId) : Option ObjectId :=
  match i.objectIdPart with
  | some h => ObjectId.ofHex h
  | none => ObjectId.from_datetime i.dt

/-- Model of a Python value as the tap sees documents: BSON scalars plus
dicts and lists.  Dicts and lists are encoded with their own cons and
nil constructors so that every traversal of the source translates to a
plain structural recursion. -/
inductive PyVal where
  | objectId (hex : String)
  | uuid (s : String)
  | datetime (d : PyDatetime)
  | binary (bs : List Nat)
  | bytes (bs : List Nat)
  | float (f : PyFloat)
  | int (n : Int)
  | str (s : String)
  | bool (b : Bool)
  | none
  | dictNil
  | dictCons (key : String) (value tail : PyVal)
  | listNil
  | listCons (head tail : PyVal)
deriving DecidableEq

/-- The base64 alphabet. -/
def b64Alphabet : List Char :=
  ['A', 'B', 'C', 'D', 'E', 'F', 'G', 'H', 'I', 'J', 'K', 'L', 'M',
   'N', 'O', 'P', 'Q', 'R', 'S', 'T', 'U', 'V', 'W', 'X', 'Y', 'Z',
   'a', 'b', 'c', 'd', 'e', 'f', 'g', 'h', 'i', 'j', 'k', 'l', 'm',
   'n', 'o', 'p', 'q', 'r', 's', 't', 'u', 'v', 'w', 'x', 'y', 'z',
   '0', '1', '2', '3', '4', '5', '6', '7', '8', '9', '+', '/']

/-- Character of one 6-bit group. -/
def b64Char (n : Nat) : Char := b64Alphabet.getD n 'A'

/-- `base64.b64encode` on a byte list, three bytes at a time with `=`
padding. -/
def b64encodeChars : List Nat → List Char
  | [] => []
  | [a] => [b64Char (a / 4), b64Char (a % 4 * 16), '=', '=']
  | [a, b] => [b64Char (a / 4), b64Char (a % 4 * 16 + b / 16), b64Char (b % 16 * 4), '=']
  | a :: b :: c :: rest =>
    b64Char (a / 4) :: b64Char (a % 4 * 16 + b / 16) :: b64Char (b % 16 * 4 + c / 64)
      :: b64Char (c % 64) :: b64encodeChars rest

/-- String form of `base64.b64encode(..).decode("utf-8")`. -/
def b64encode (bs : List Nat) : String := ⟨b64encodeChars bs⟩

/-- `sanitize_doc` of `tap_mongodb/utils.py`: ObjectId, UUID, datetime,
Binary and bytes become strings; dicts and lists are rebuilt with
sanitized values; anything else, floats included, passes through. -/
def sanitize_doc : PyVal → PyVal
  | .objectId h => .str h
  | .uuid s => .str s
  | .datetime d => .str d.isoformat
  | .binary bs => .str (b64encode bs)
  | .bytes bs => .str (b64encode bs)
  | .dictNil => .dictNil
  | .dictCons k v rest => .dictCons k (sanitize_doc v) (sanitize_doc rest)
  | .listNil => .listNil
  | .listCons v rest => .listCons (sanitize_doc v) (sanitize_doc rest)
  | .float f => .float f
  | .int n => .int n
  | .str s => .str s
  | .bool b => .bool b
  | .none => .none

/-- The membership test `value in [-math.inf, math.inf, math.nan]` of
`recursive_replace_empty_in_dict`, by value: Python `in` compares with
`==`, `nan` is unequal to every float including itself, and the `is`
fast path of `in` cannot fire for floats decoded from a BSON document,
so exactly the two infinities test true. -/
def isInfLike : PyVal → Bool
  | .float .inf => true
  | .float .negInf => true
  | _ => false

mutual

/-- Value-level semantics of `recursive_replace_empty_in_dict`
(streams.py lines 32-48) on one dict entry value: an infinity becomes
None; a list has its dict items rewritten recursively and its infinity
items replaced, other items (nested lists included) kept; a dict is
rewritten recursively; anything else is kept. -/
def replaceEmptyValue : PyVal → PyVal
  | .dictCons k v rest =>
    .dictCons k
      (if isInfLike v then .none
       else match v with
         | .listCons i it => replaceEmptyItems (.listCons i it)
         | .listNil => .listNil
         | .dictCons k2 v2 r2 => replaceEmptyValue (.dictCons k2 v2 r2)
         | .dictNil => .dictNil
         | other => other)
      (replaceEmptyValue rest)
  | v => v

/-- Item loop of `recursive_replace_empty_in_dict` over a list value. -/
def replaceEmptyItems : PyVal → PyVal
  | .listCons i rest =>
    .listCons
      (match i with
        | .dictCons k2 v2 r2 => replaceEmptyValue (.dictCons k2 v2 r2)
        | other => if isInfLike other then .none else other)
      (replaceEmptyItems rest)
  | v => v

end

/-- Lower-bound ObjectId denoted by an IncrementalId bookmark string. -/
def parseIdToObjectId (s : String) : Option ObjectId :=
  (IncrementalId.from_string s).bind IncrementalId.object_id

/-- Modelled from the spec: `to_object_id` is imported by streams.py
from tap_mongodb.utils but its definition is not among the provided
sources.  Per spec sections 4.5 and 7 and scenario 2, an IncrementalId
string is parsed and its ObjectId taken as the query lower bound, and an
invalid bookmark string falls back, with a warning and without failing,
to the configured start_date; a start_date that itself does not parse is
fatal, modelled as `none`. -/
def to_object_id (startDate : String) (s : String) : Option ObjectId :=
  match parseIdToObjectId s with
  | some o => some o
  | Option.none => parseIdToObjectId startDate

/-- streams.py `DEFAULT_START_DATE`. -/
def DEFAULT_START_DATE : String := "1970-01-01"

/-- Bytewise comparison, the order MongoDB applies to ObjectId values in
`$gt` filters and `_id` sorts. -/
def oidLtBytes : List Nat → List Nat → Bool
  | [], [] => false
  | [], _ :: _ => true
  | _ :: _, [] => false
  | a :: as, b :: bs => if a < b then true else if b < a then false else oidLtBytes as bs

/-- Strict ObjectId order. -/
def ObjectId.ltB (a b : ObjectId) : Bool := oidLtBytes a.bytes b.bytes

/-- Insert into a list sorted by ascending `_id`. -/
def insertByOid (p : ObjectId × PyVal) : List (ObjectId × PyVal) → List (ObjectId × PyVal)
  | [] => [p]
  | q :: rest => if ObjectId.ltB q.1 p.1 then q :: insertByOid p rest else p :: q :: rest

/-- The ascending `_id` sort of the incremental `find`, modelled as an
insertion sort. -/
def sortByOid : List (ObjectId × PyVal) → List (ObjectId × PyVal)
  | [] => []
  | p :: rest => insertByOid p (sortByOid rest)

/-- The shape shared by every record dict the two readers yield
(`NormalizedRecord` of the spec).  The Python `namespace` key is called
`ns` here and the `to` key `toNamespace`; the optional `_sdc_*` metadata
keys are the three trailing fields. -/
structure TapRecord where
  replication_key : String
  object_id : Option String
  document : Option PyVal
  update_description : Option PyVal
  operation_type : Option String
  cluster_time : Option String
  ns : Option (String × String)
  toNamespace : Option (String × String)
  sdcExtractedAt : Option PyDatetime
  sdcBatchedAt : Option PyDatetime
  sdcDeletedAt : Option PyDatetime
deriving DecidableEq

/-- One record of `_get_records_incremental` (streams.py lines 205-226):
the fused replication key, the hex object id, the document after the
in-place `recursive_replace_empty_in_dict`, the scanned namespace, nulls
for every change-stream-only field, and `_sdc_batched_at` when metadata
is enabled (`now` stands for `datetime.now(timezone.utc)`). -/
def mkIncrementalRecord (meta : Bool) (now : PyDatetime) (db coll : String)
    (oid : ObjectId) (doc : PyVal) : TapRecord :=
  { replication_key := (IncrementalId.from_object_id oid).toStr
    object_id := some oid.str
    document := some (replaceEmptyValue doc)
    update_description := Option.none
    operation_type := Option.none
    cluster_time := Option.none
    ns := some (db, coll)
    toNamespace := Option.none
    sdcExtractedAt := Option.none
    sdcBatchedAt := if meta then some now else Option.none
    sdcDeletedAt := Option.none }

/-- `_get_records_incremental` (streams.py lines 193-226).  The
collection contents are a list of pairs of the `_id` ObjectId of a
document and the document dict itself; `find` with the `$gt` filter and
the ascending `_id` sort becomes a filter and a merge sort.  A `none`
result models the ValueError of an unparseable start date. -/
def getRecordsIncremental (cfgStartDate : Option String) (bookmark : Option String)
    (meta : Bool) (now : PyDatetime) (db coll : String)
    (docs : List (ObjectId × PyVal)) : Option (List TapRecord) :=
  let startStr := cfgStartDate.getD DEFAULT_START_DATE
  let lower? := match bookmark with
    | some b => if b ≠ "" then to_object_id startStr b else to_object_id startStr startStr
    | Option.none => to_object_id startStr startStr
  match lower? with
  | Option.none => Option.none
  | some lower =>
    some ((sortByOid (docs.filter (fun p => lower.ltB p.1))).map
      (fun p => mkIncrementalRecord meta now db coll p.1 p.2))

/-- Engine version pair, `MongoVersion` of `tap_mongodb/connector.py`. -/
abbrev MongoVersion := Nat × Nat

/-- Modelled from the spec: the `ResumeStrategy` enum imported by
streams.py from tap_mongodb.types is not among the provided sources. -/
inductive ResumeStrategy where
  | startAfter
  | resumeAfter
  | startAtOperationTime
deriving DecidableEq

/-- Errors of the resume-strategy selector, per spec section 7. -/
inductive StrategyError where
  | invalidConfig
  | unsupportedEngine
deriving DecidableEq

/-- Version at least `(M, m)`. -/
def versionGe (v : MongoVersion) (mj mi : Nat) : Bool :=
  mj < v.1 || (v.1 == mj && mi ≤ v.2)

/-- Modelled from the spec: `get_resume_strategy` is imported by
streams.py from tap_mongodb.utils but its definition is not among the
provided sources (only its tests are).  Spec section 4.3: an unknown
preference fails with InvalidConfig; a version below (3,6) fails with
UnsupportedEngine; then the decision table applies, falling through to
RESUME_AFTER. -/
def get_resume_strategy (v : MongoVersion) (pref : String) : Except StrategyError ResumeStrategy :=
  if pref ≠ "resume_after" ∧ pref ≠ "start_after" ∧ pref ≠ "start_at_operation_time" then
    .error .invalidConfig
  else if !versionGe v 3 6 then
    .error .unsupportedEngine
  else if versionGe v 4 2 ∧ pref = "start_after" then
    .ok .startAfter
  else if versionGe v 4 0 ∧ pref = "start_at_operation_time" then
    .ok .startAtOperationTime
  else
    .ok .resumeAfter

/-- Which resume option, if any, the change-stream options dict carries,
and with which token (`start_after` or `resume_after` keys of
`change_stream_options`). -/
inductive ResumeOptKind where
  | startAfter
  | resumeAfter
deriving DecidableEq

/-- The `change_stream_options` dict: `full_document` is always
`updateLookup`; `resume` holds the optional resume key and token. -/
structure CSOptions where
  resume : Option (ResumeOptKind × String)
deriving DecidableEq

/-- Options built by streams.py lines 233-245: a bookmark that is
present and differs from the default start date is installed under the
key the resume strategy selects (START_AT_OPERATION_TIME installs
nothing). -/
def buildChangeStreamOptions (bookmark : Option String) (strategy : ResumeStrategy) : CSOptions :=
  match bookmark with
  | Option.none => ⟨Option.none⟩
  | some b =>
    if b ≠ DEFAULT_START_DATE then
      match strategy with
      | .startAfter => ⟨some (.startAfter, b)⟩
      | .resumeAfter => ⟨some (.resumeAfter, b)⟩
      | .startAtOperationTime => ⟨Option.none⟩
    else ⟨Option.none⟩

/-- `change_stream_options.pop("resume_after")/pop("start_after")`. -/
def CSOptions.dropResume (_o : CSOptions) : CSOptions := ⟨Option.none⟩

/-- One change event as delivered by `change_stream.try_next`.
`fullDocument` distinguishes an absent key (outer `none`) from a present
key holding null (inner `none`), since only the absent key falls back to
`documentKey`; `clusterTime` is the event time after `.as_datetime()`. -/
structure ChangeEvent where
  idData : String
  operationType : String
  clusterTime : PyDatetime
  fullDocument : Option (Option PyVal)
  documentKey : Option PyVal
  updateDescription : Option PyVal
  nsDb : String
  nsColl : String
  toNs : Option (String × String)
deriving DecidableEq

/-- Python truthiness of the optional document value. -/
def pyTruthyDoc : Option PyVal → Bool
  | Option.none => false
  | some .dictNil => false
  | some .listNil => false
  | some (.str s) => s ≠ ""
  | some (.int n) => n ≠ 0
  | some (.bool b) => b
  | some .none => false
  | some (.float (.finite q)) => q ≠ 0
  | some _ => true

/-- Dict lookup in the cons encoding. -/
def dictGet? (k : String) : PyVal → Option PyVal
  | .dictCons k2 v rest => if k2 = k then some v else dictGet? k rest
  | _ => Option.none

/-- `str(...)` as the log-based reader applies it to the `_id` value of
a document; only the ObjectId case occurs for real MongoDB documents,
the other scalar cases follow Python, and container values (whose repr
this model does not reproduce) map to a fixed placeholder. -/
def pyStr : PyVal → String
  | .objectId h => h
  | .uuid s => s
  | .str s => s
  | .int n => toString n
  | .bool b => if b then "True" else "False"
  | .none => "None"
  | _ => "<repr>"

/-- The record built for one allowlisted change event (streams.py lines
357-402): the resume-token `replication_key`, the `fullDocument` value
with the `documentKey` fallback for an absent key, the `_id` hex when
the document is truthy and has one, the event namespace, the optional
`updateDescription` and rename `to` namespace, and the metadata stamps,
`_sdc_deleted_at` being set on delete events. -/
def mkLogBasedRecord (meta : Bool) (now : PyDatetime) (e : ChangeEvent) : TapRecord :=
  let document : Option PyVal :=
    match e.fullDocument with
    | some v => v
    | Option.none =>
      match e.documentKey with
      | some d => some d
      | Option.none => Option.none
  let objectId : Option PyVal :=
    if pyTruthyDoc document ∧ (document.bind (dictGet? "_id")).isSome then
      document.bind (dictGet? "_id")
    else Option.none
  { replication_key := e.idData
    object_id := objectId.map pyStr
    document := document
    update_description := e.updateDescription
    operation_type := some e.operationType
    cluster_time := some e.clusterTime.isoformat
    ns := some (e.nsDb, e.nsColl)
    toNamespace := e.toNs
    sdcExtractedAt := if meta then some e.clusterTime else Option.none
    sdcBatchedAt := if meta then some now else Option.none
    sdcDeletedAt :=
      if meta ∧ e.operationType = "delete" then some e.clusterTime else Option.none }

/-- The dummy record of streams.py lines 335-350: only the resume token
and, when metadata is enabled, the two `now` stamps are set. -/
def mkDummyRecord (meta : Bool) (now : PyDatetime) (token : String) : TapRecord :=
  { replication_key := token
    object_id := Option.none
    document := Option.none
    update_description := Option.none
    operation_type := Option.none
    cluster_time := Option.none
    ns := Option.none
    toNamespace := Option.none
    sdcExtractedAt := if meta then some now else Option.none
    sdcBatchedAt := if meta then some now else Option.none
    sdcDeletedAt := Option.none }

/-- One observable outcome of a `try_next` poll: a delivered event or a
null tick together with the stream resume token the reader would then
see, or an OperationFailure carrying its code, together with the resume
token of the reopened stream in case the reader recovers (the reopening
`watch` call is modelled as succeeding). -/
inductive Tick where
  | next (res : Option ChangeEvent) (token : Option String)
  | fail (code : Int) (reopenToken : Option String)
deriving DecidableEq

/-- What a run of the poll loop leaves behind: the records yielded, in
order, and the code of the OperationFailure that ended it, if one did. -/
structure PollResult where
  emitted : List TapRecord
  failure : Option Int
deriving DecidableEq

/-- Configuration the log-based reader reads: the operation-type
allowlist, the metadata flag, and the `now` clock value. -/
structure LogCfg where
  allowlist : List String
  meta : Bool
  now : PyDatetime

/-- The poll loop of `_get_records_log_based` (streams.py lines
291-403) over a trace of poll outcomes; the trace ending models the
stream ceasing to be alive.  A 286 failure drops the resume options,
reopens and is treated as a null tick; any other failure propagates.  A
null tick emits the dummy record and stops if nothing real was seen and
a token is present, stops silently if something was seen, and keeps
polling otherwise.  A delivered event outside the allowlist is skipped;
one inside is emitted and marks the stream as seen. -/
def pollLoop (cfg : LogCfg) : List Tick → CSOptions → Bool → PollResult
  | [], _, _ => ⟨[], Option.none⟩
  | .fail code tok :: rest, opts, hasSeen =>
    if code = 286 then
      match tok, hasSeen with
      | some t, false => ⟨[mkDummyRecord cfg.meta cfg.now t], Option.none⟩
      | _, true => ⟨[], Option.none⟩
      | Option.none, false => pollLoop cfg rest opts.dropResume false
    else ⟨[], some code⟩
  | .next Option.none tok :: rest, opts, hasSeen =>
    (match tok, hasSeen with
      | some t, false => ⟨[mkDummyRecord cfg.meta cfg.now t], Option.none⟩
      | _, true => ⟨[], Option.none⟩
      | Option.none, false => pollLoop cfg rest opts false)
  | .next (some e) _ :: rest, opts, hasSeen =>
    if e.operationType ∈ cfg.allowlist then
      let r := pollLoop cfg rest opts true
      ⟨mkLogBasedRecord cfg.meta cfg.now e :: r.emitted, r.failure⟩
    else pollLoop cfg rest opts hasSeen

/-- Prefix test on character lists. -/
def charsPrefixOf : List Char → List Char → Bool
  | [], _ => true
  | _ :: _, [] => false
  | a :: as, b :: bs => a = b && charsPrefixOf as bs

/-- The Python `in` substring test. -/
def charsContain (needle : List Char) : List Char → Bool
  | [] => needle.isEmpty
  | b :: rest => charsPrefixOf needle (b :: rest) || charsContain needle rest

/-- Outcome of the initial `collection.watch` call. -/
inductive WatchOutcome where
  | ok
  | fail (code : Int) (errmsg : String)
deriving DecidableEq

/-- Errors the open phase can raise. -/
inductive OpenError where
  | operationFailure (code : Int)
  | runtimeError
deriving DecidableEq

/-- The open protocol of `_get_records_log_based` (streams.py lines
250-289): on success the options stand; a code-136 failure whose
message names `modifyChangeStreams`, with the enabling config on, runs
the admin command and retries (a failed command raises RuntimeError); a
code-286 failure drops the resume options and reopens; anything else
propagates.  The reopened `watch` calls are modelled as succeeding, and
the result is the option dict the stream was opened with. -/
def openChangeStream (opts : CSOptions) (allowModify : Bool) (o : WatchOutcome)
    (adminOk : Bool) : Except OpenError CSOptions :=
  match o with
  | .ok => .ok opts
  | .fail code errmsg =>
    if code = 136 ∧ charsContain ("modifyChangeStreams has not been run".toList) errmsg.toList
        ∧ allowModify then
      if adminOk then .ok opts else .error .runtimeError
    else if code = 286 then .ok opts.dropResume
    else .error (.operationFailure code)

/-- Scalar Python values for the heap model of mutation. -/
inductive HScalar where
  | objectId (hex : String)
  | uuid (s : String)
  | datetime (d : PyDatetime)
  | binary (bs : List Nat)
  | bytes (bs : List Nat)
  | float (f : PyFloat)
  | int (n : Int)
  | str (s : String)
  | bool (b : Bool)
  | none
deriving DecidableEq

/-- A Python value in the heap model: an immutable scalar, or a
reference to a dict or list object in the heap. -/
inductive HVal where
  | scalar (s : HScalar)
  | ref (a : Nat)
deriving DecidableEq

/-- A heap cell: the contents of one dict or list object. -/
inductive HCell where
  | dcell (fields : List (String × HVal))
  | lcell (items : List HVal)
deriving DecidableEq

/-- The heap: an allocation counter and the allocated cells. -/
structure Heap where
  next : Nat
  cells : List (Nat × HCell)
deriving DecidableEq

/-- Read the cell at an address. -/
def heapGet (h : Heap) (a : Nat) : Option HCell :=
  (h.cells.find? (fun p => p.1 == a)).map (fun p => p.2)

/-- Overwrite the cell at an existing address. -/
def heapSet (h : Heap) (a : Nat) (c : HCell) : Heap :=
  ⟨h.next, h.cells.map (fun p => if p.1 == a then (a, c) else p)⟩

/-- Allocate a fresh cell, returning the new heap and its address. -/
def heapAlloc (h : Heap) (c : HCell) : Heap × Nat :=
  (⟨h.next + 1, (h.next, c) :: h.cells⟩, h.next)

/-- The allocated addresses. -/
def heapDom (h : Heap) : List Nat := h.cells.map (fun p => p.1)

/-- The scalar conversions of `sanitize_doc`. -/
def sanitizeScalar : HScalar → HScalar
  | .objectId h => .str h
  | .uuid s => .str s
  | .datetime d => .str d.isoformat
  | .binary bs => .str (b64encode bs)
  | .bytes bs => .str (b64encode bs)
  | s => s

/-- Work items of the heap-level sanitizer: one value, the remaining
entries of a dict comprehension, or the remaining items of a list
comprehension. -/
inductive SanArg where
  | one (v : HVal)
  | fields (fs : List (String × HVal))
  | items (vs : List HVal)
deriving DecidableEq

/-- Results matching `SanArg`. -/
inductive SanOut where
  | one (v : HVal)
  | fields (fs : List (String × HVal))
  | items (vs : List HVal)
deriving DecidableEq

/-- Heap-level `sanitize_doc`: scalars are converted, a dict or list
reference has its contents sanitized and the results placed in a
freshly allocated cell.  The fuel bounds the recursion (a cyclic
document exhausts it, as it raises RecursionError in Python). -/
def sanitizeHeap : Nat → Heap → SanArg → Option (Heap × SanOut)
  | 0, _, _ => Option.none
  | _ + 1, h, .one (.scalar s) => some (h, .one (.scalar (sanitizeScalar s)))
  | fuel + 1, h, .one (.ref a) =>
    match heapGet h a with
    | some (.dcell fs) =>
      match sanitizeHeap fuel h (.fields fs) with
      | some (h2, .fields fs2) =>
        let an := heapAlloc h2 (.dcell fs2)
        some (an.1, .one (.ref an.2))
      | _ => Option.none
    | some (.lcell vs) =>
      match sanitizeHeap fuel h (.items vs) with
      | some (h2, .items vs2) =>
        let an := heapAlloc h2 (.lcell vs2)
        some (an.1, .one (.ref an.2))
      | _ => Option.none
    | Option.none => Option.none
  | _ + 1, h, .fields [] => some (h, .fields [])
  | fuel + 1, h, .fields ((k, v) :: rest) =>
    match sanitizeHeap fuel h (.one v) with
    | some (h2, .one v2) =>
      match sanitizeHeap fuel h2 (.fields rest) with
      | some (h3, .fields rest2) => some (h3, .fields ((k, v2) :: rest2))
      | _ => Option.none
    | _ => Option.none
  | _ + 1, h, .items [] => some (h, .items [])
  | fuel + 1, h, .items (v :: rest) =>
    match sanitizeHeap fuel h (.one v) with
    | some (h2, .one v2) =>
      match sanitizeHeap fuel h2 (.items rest) with
      | some (h3, .items rest2) => some (h3, .items (v2 :: rest2))
      | _ => Option.none
    | _ => Option.none

/-- `sanitize_doc` in the heap model. -/
def sanitize_doc_heap (fuel : Nat) (h : Heap) (v : HVal) : Option (Heap × HVal) :=
  match sanitizeHeap fuel h (.one v) with
  | some (h2, .one v2) => some (h2, v2)
  | _ => Option.none

/-- The infinity membership test on a heap value: references (dicts and
lists) and every other scalar compare unequal to the three constants,
and NaN is unequal even to itself. -/
def isInfScalar : HVal → Bool
  | .scalar (.float .inf) => true
  | .scalar (.float .negInf) => true
  | _ => false

/-- `dct[k] = None` on the dict cell at `a`. -/
def heapSetField (h : Heap) (a : Nat) (k : String) : Heap :=
  match heapGet h a with
  | some (.dcell fs) =>
    heapSet h a (.dcell (fs.map (fun p => if p.1 == k then (p.1, .scalar .none) else p)))
  | _ => h

/-- `value[i] = None` on the list cell at `a`. -/
def heapSetItem (h : Heap) (a : Nat) (i : Nat) : Heap :=
  match heapGet h a with
  | some (.lcell vs) => heapSet h a (.lcell (vs.set i (.scalar .none)))
  | _ => h

/-- Work items of the heap-level `recursive_replace_empty_in_dict`: a
dict to rewrite, the remaining `items()` of the dict at `a`, or the
remaining `enumerate` items of the list at `a`. -/
inductive RRArg where
  | dict (a : Nat)
  | fields (a : Nat) (fs : List (String × HVal))
  | items (a : Nat) (i : Nat) (vs : List HVal)
deriving DecidableEq

/-- Heap-level `recursive_replace_empty_in_dict` (streams.py lines
32-48): an infinity value of a dict entry is overwritten with None in
place; a list value has its dict items rewritten recursively and its
infinity items overwritten in place; a dict value is rewritten
recursively; everything else is left alone.  No allocation happens.
The fuel bounds the recursion as in the sanitizer. -/
def rrHeap : Nat → Heap → RRArg → Option Heap
  | 0, _, _ => Option.none
  | fuel + 1, h, .dict a =>
    match heapGet h a with
    | some (.dcell fs) => rrHeap fuel h (.fields a fs)
    | _ => Option.none
  | _ + 1, h, .fields _ [] => some h
  | fuel + 1, h, .fields a ((k, v) :: rest) =>
    if isInfScalar v then rrHeap fuel (heapSetField h a k) (.fields a rest)
    else
      match v with
      | .ref b =>
        match heapGet h b with
        | some (.lcell vs) =>
          match rrHeap fuel h (.items b 0 vs) with
          | some h2 => rrHeap fuel h2 (.fields a rest)
          | Option.none => Option.none
        | some (.dcell _) =>
          match rrHeap fuel h (.dict b) with
          | some h2 => rrHeap fuel h2 (.fields a rest)
          | Option.none => Option.none
        | Option.none => Option.none
      | .scalar _ => rrHeap fuel h (.fields a rest)
  | _ + 1, h, .items _ _ [] => some h
  | fuel + 1, h, .items a i (v :: rest) =>
    match v with
    | .ref b =>
      match heapGet h b with
      | some (.dcell _) =>
        match rrHeap fuel h (.dict b) with
        | some h2 => rrHeap fuel h2 (.items a (i + 1) rest)
        | Option.none => Option.none
      | _ => rrHeap fuel h (.items a (i + 1) rest)
    | .scalar _ =>
      if isInfScalar v then rrHeap fuel (heapSetItem h a i) (.items a (i + 1) rest)
      else rrHeap fuel h (.items a (i + 1) rest)

/-- `recursive_replace_empty_in_dict` in the heap model: rewrite in
place and return the argument itself (the `return dct` line). -/
def recursive_replace_empty_in_dict (fuel : Nat) (h : Heap) (a : Nat) : Option (Heap × Nat) :=
  (rrHeap fuel h (.dict a)).map (fun h2 => (h2, a))

/-! Helper lemmas. -/

theorem versionGe_36_of_42 (v : MongoVersion) (h : versionGe v 4 2 = true) :
    versionGe v 3 6 = true := by
  unfold versionGe at *
  simp only [Bool.or_eq_true, decide_eq_true_eq, Bool.and_eq_true, beq_iff_eq,
    Nat.decLt, Nat.decLe] at *
  omega

theorem versionGe_36_of_40 (v : MongoVersion) (h : versionGe v 4 0 = true) :
    versionGe v 3 6 = true := by
  unfold versionGe at *
  simp only [Bool.or_eq_true, decide_eq_true_eq, Bool.and_eq_true, beq_iff_eq,
    Nat.decLt, Nat.decLe] at *
  omega

/-- Claim C4: the resume-strategy selector, against the spec-modelled
`get_resume_strategy`: an unknown preference fails, a version below
(3,6) fails, START_AFTER needs version at least (4,2) with the
start_after preference, START_AT_OPERATION_TIME needs at least (4,0)
with the start_at_operation_time preference, and every other supported
combination returns RESUME_AFTER. -/
theorem C4_resume_strategy_selector (v : MongoVersion) (pref : String) :
    ((pref ≠ "resume_after" ∧ pref ≠ "start_after" ∧ pref ≠ "start_at_operation_time") →
      get_resume_strategy v pref = .error .invalidConfig) ∧
    ((pref = "resume_after" ∨ pref = "start_after" ∨ pref = "start_at_operation_time") →
      versionGe v 3 6 = false → get_resume_strategy v pref = .error .unsupportedEngine) ∧
    (versionGe v 4 2 = true → pref = "start_after" →
      get_resume_strategy v pref = .ok .startAfter) ∧
    (versionGe v 4 0 = true → pref = "start_at_operation_time" →
      get_resume_strategy v pref = .ok .startAtOperationTime) ∧
    (versionGe v 3 6 = true → pref = "resume_after" →
      get_resume_strategy v pref = .ok .resumeAfter) ∧
    (versionGe v 3 6 = true → versionGe v 4 2 = false → pref = "start_after" →
      get_resume_strategy v pref = .ok .resumeAfter) ∧
    (versionGe v 3 6 = true → versionGe v 4 0 = false → pref = "start_at_operation_time" →
      get_resume_strategy v pref = .ok .resumeAfter) := by
  refine ⟨fun h => ?_, fun h h36 => ?_, fun h42 hp => ?_, fun h40 hp => ?_,
    fun h36 hp => ?_, fun h36 h42 hp => ?_, fun h36 h40 hp => ?_⟩
  · simp [get_resume_strategy, h.1, h.2.1, h.2.2]
  · rcases h with h | h | h <;> subst h <;> simp [get_resume_strategy, h36]
  · subst hp
    simp [get_resume_strategy, versionGe_36_of_42 v h42, h42]
  · subst hp
    have h36 := versionGe_36_of_40 v h40
    simp only [get_resume_strategy]
    rw [if_neg (by simp), if_neg (by simp [h36]), if_neg (by simp), if_pos (by simp [h40])]
  · subst hp
    simp only [get_resume_strategy]
    rw [if_neg (by simp), if_neg (by simp [h36]), if_neg (by simp), if_neg (by simp)]
  · subst hp
    simp only [get_resume_strategy]
    rw [if_neg (by simp), if_neg (by simp [h36]), if_neg (by simp [h42]), if_neg (by simp)]
  · subst hp
    simp only [get_resume_strategy]
    rw [if_neg (by simp), if_neg (by simp [h36]), if_neg (by simp), if_neg (by simp [h40])]

/-- Witness for C4 at the four corners the tests pin down. -/
theorem C4_resume_strategy_selector_witness :
    get_resume_strategy (4, 2) "start_after" = .ok .startAfter ∧
    get_resume_strategy (3, 6) "start_after" = .ok .resumeAfter ∧
    get_resume_strategy (4, 0) "start_at_operation_time" = .ok .startAtOperationTime ∧
    get_resume_strategy (3, 5) "resume_after" = .error .unsupportedEngine ∧
    get_resume_strategy (4, 0) "fake_value" = .error .invalidConfig :=
  ⟨(C4_resume_strategy_selector (4, 2) "start_after").2.2.1 (by decide) rfl,
   (C4_resume_strategy_selector (3, 6) "start_after").2.2.2.2.2.1 (by decide) (by decide) rfl,
   (C4_resume_strategy_selector (4, 0) "start_at_operation_time").2.2.2.1 (by decide) rfl,
   (C4_resume_strategy_selector (3, 5) "resume_after").2.1 (Or.inl rfl) (by decide),
   (C4_resume_strategy_selector (4, 0) "fake_value").1 (by decide)⟩

/-- Any ObjectId, UUID, datetime, Binary or bytes value anywhere in a
tree. -/
def hasBsonSpecific : PyVal → Bool
  | .objectId _ => true
  | .uuid _ => true
  | .datetime _ => true
  | .binary _ => true
  | .bytes _ => true
  | .dictCons _ v rest => hasBsonSpecific v || hasBsonSpecific rest
  | .listCons v rest => hasBsonSpecific v || hasBsonSpecific rest
  | _ => false

/-- Any non-finite float anywhere in a tree. -/
def hasNonFiniteFloat : PyVal → Bool
  | .float .inf => true
  | .float .negInf => true
  | .float .nan => true
  | .dictCons _ v rest => hasNonFiniteFloat v || hasNonFiniteFloat rest
  | .listCons v rest => hasNonFiniteFloat v || hasNonFiniteFloat rest
  | _ => false

/-- Counterexample to claim C2 as stated: `sanitize_doc` leaves the
positive infinity inside a one-entry dict untouched, so its output does
contain a non-finite float. -/
theorem C2_sanitizer_closure_counterexample :
    sanitize_doc (.dictCons "x" (.float .inf) .dictNil)
        = .dictCons "x" (.float .inf) .dictNil ∧
      hasNonFiniteFloat (sanitize_doc (.dictCons "x" (.float .inf) .dictNil)) = true := by
  exact ⟨rfl, rfl⟩

/-- Claim C2 as amended: the output of `sanitize_doc` contains no
ObjectId, UUID, datetime, Binary or bytes value anywhere in its tree,
each being converted to a string; non-finite floats, however, pass
through `sanitize_doc` unchanged. -/
theorem C2_sanitizer_type_closure (v : PyVal) (f : PyFloat) :
    hasBsonSpecific (sanitize_doc v) = false ∧ sanitize_doc (.float f) = .float f := by
  refine ⟨?_, rfl⟩
  induction v with
  | dictCons k val rest ihv ihr => simp [sanitize_doc, hasBsonSpecific, ihv, ihr]
  | listCons val rest ihv ihr => simp [sanitize_doc, hasBsonSpecific, ihv, ihr]
  | _ => simp [sanitize_doc, hasBsonSpecific]

theorem to_object_id_self (s : String) : to_object_id s s = parseIdToObjectId s := by
  unfold to_object_id
  cases h : parseIdToObjectId s <;> simp

/-- Claim C6: a bookmark string that is not a valid IncrementalId does
not fail the incremental reader: the run equals the bookmarkless run,
which starts from the configured start_date; and under the default
start date the lower bound obtained for such a bookmark is the
all-zero ObjectId. -/
theorem C6_invalid_bookmark_falls_back (b : String) (cfgStart : Option String)
    (meta : Bool) (now : PyDatetime) (db coll : String) (docs : List (ObjectId × PyVal))
    (hb : IncrementalId.from_string b = Option.none) :
    getRecordsIncremental cfgStart (some b) meta now db coll docs
        = getRecordsIncremental cfgStart Option.none meta now db coll docs ∧
      to_object_id DEFAULT_START_DATE b
        = some ⟨[0, 0, 0, 0, 0, 0, 0, 0, 0, 0, 0, 0]⟩ := by
  have hpb : parseIdToObjectId b = Option.none := by
    unfold parseIdToObjectId
    rw [hb]
    rfl
  constructor
  · unfold getRecordsIncremental
    by_cases hbe : b = ""
    · simp [hbe]
    · simp only [hbe, ne_eq, not_false_eq_true, if_true, to_object_id_self, to_object_id, hpb]
      cases h : parseIdToObjectId (cfgStart.getD DEFAULT_START_DATE) <;> simp [h]
  · unfold to_object_id
    rw [hpb]
    rfl

/-- Witness for C6: a garbage bookmark over a one-document collection. -/
theorem C6_invalid_bookmark_falls_back_witness :
    getRecordsIncremental Option.none (some "garbage") false ⟨2024, 1, 1, 0, 0, 0, true⟩
          "db" "c" [(⟨[97, 74, 128, 184, 26, 216, 198, 0, 1, 183, 213, 243]⟩, .dictNil)]
        = getRecordsIncremental Option.none Option.none false ⟨2024, 1, 1, 0, 0, 0, true⟩
          "db" "c" [(⟨[97, 74, 128, 184, 26, 216, 198, 0, 1, 183, 213, 243]⟩, .dictNil)] ∧
      to_object_id DEFAULT_START_DATE "garbage"
        = some ⟨[0, 0, 0, 0, 0, 0, 0, 0, 0, 0, 0, 0]⟩ :=
  C6_invalid_bookmark_falls_back "garbage" Option.none false ⟨2024, 1, 1, 0, 0, 0, true⟩
    "db" "c" [(⟨[97, 74, 128, 184, 26, 216, 198, 0, 1, 183, 213, 243]⟩, .dictNil)] (by decide)

theorem mem_insertByOid (p q : ObjectId × PyVal) (l : List (ObjectId × PyVal)) :
    q ∈ insertByOid p l ↔ q = p ∨ q ∈ l := by
  induction l with
  | nil => simp [insertByOid]
  | cons x rest ih =>
    unfold insertByOid
    by_cases hx : ObjectId.ltB x.1 p.1
    · simp [hx, ih]
      tauto
    · simp [hx, ih]

theorem mem_sortByOid (q : ObjectId × PyVal) (l : List (ObjectId × PyVal)) :
    q ∈ sortByOid l ↔ q ∈ l := by
  induction l with
  | nil => simp [sortByOid]
  | cons x rest ih => simp [sortByOid, mem_insertByOid, ih]

/-- Claim C7: every record the incremental reader emits carries the
non-null hex `object_id` of a scanned document, the fused replication
key of that same `_id`, the scanned namespace, and nulls in all four
change-stream-only fields. -/
theorem C7_incremental_record_shape (cfgStart : Option String) (bookmark : Option String)
    (meta : Bool) (now : PyDatetime) (db coll : String) (docs : List (ObjectId × PyVal))
    (out : List TapRecord) (r : TapRecord)
    (hout : getRecordsIncremental cfgStart bookmark meta now db coll docs = some out)
    (hr : r ∈ out) :
    ∃ p ∈ docs,
      r.object_id = some (ObjectId.str p.1) ∧
      r.replication_key = (IncrementalId.from_object_id p.1).toStr ∧
      r.ns = some (db, coll) ∧
      r.operation_type = Option.none ∧
      r.cluster_time = Option.none ∧
      r.update_description = Option.none ∧
      r.toNamespace = Option.none := by
  simp only [getRecordsIncremental] at hout
  split at hout
  · exact absurd hout (by simp)
  · simp only [Option.some.injEq] at hout
    subst hout
    rcases List.mem_map.mp hr with ⟨p, hp, hpr⟩
    have hpd : p ∈ docs := (List.mem_filter.mp ((mem_sortByOid p _).mp hp)).1
    exact ⟨p, hpd, by rw [← hpr]; exact ⟨rfl, rfl, rfl, rfl, rfl, rfl, rfl⟩⟩

/-- Witness for C7: the one-document scenario of the spec. -/
theorem C7_incremental_record_shape_witness :
    ∃ p ∈ [((⟨[97, 74, 128, 184, 26, 216, 198, 0, 1, 183, 213, 243]⟩ : ObjectId), PyVal.dictNil)],
      (mkIncrementalRecord false ⟨2024, 1, 1, 0, 0, 0, true⟩ "db" "c"
          ⟨[97, 74, 128, 184, 26, 216, 198, 0, 1, 183, 213, 243]⟩ .dictNil).object_id
          = some (ObjectId.str p.1) ∧
      (mkIncrementalRecord false ⟨2024, 1, 1, 0, 0, 0, true⟩ "db" "c"
          ⟨[97, 74, 128, 184, 26, 216, 198, 0, 1, 183, 213, 243]⟩ .dictNil).replication_key
          = (IncrementalId.from_object_id p.1).toStr ∧
      (mkIncrementalRecord false ⟨2024, 1, 1, 0, 0, 0, true⟩ "db" "c"
          ⟨[97, 74, 128, 184, 26, 216, 198, 0, 1, 183, 213, 243]⟩ .dictNil).ns
          = some ("db", "c") ∧
      (mkIncrementalRecord false ⟨2024, 1, 1, 0, 0, 0, true⟩ "db" "c"
          ⟨[97, 74, 128, 184, 26, 216, 198, 0, 1, 183, 213, 243]⟩ .dictNil).operation_type
          = Option.none ∧
      (mkIncrementalRecord false ⟨2024, 1, 1, 0, 0, 0, true⟩ "db" "c"
          ⟨[97, 74, 128, 184, 26, 216, 198, 0, 1, 183, 213, 243]⟩ .dictNil).cluster_time
          = Option.none ∧
      (mkIncrementalRecord false ⟨2024, 1, 1, 0, 0, 0, true⟩ "db" "c"
          ⟨[97, 74, 128, 184, 26, 216, 198, 0, 1, 183, 213, 243]⟩ .dictNil).update_description
          = Option.none ∧
      (mkIncrementalRecord false ⟨2024, 1, 1, 0, 0, 0, true⟩ "db" "c"
          ⟨[97, 74, 128, 184, 26, 216, 198, 0, 1, 183, 213, 243]⟩ .dictNil).toNamespace
          = Option.none :=
  C7_incremental_record_shape Option.none Option.none false ⟨2024, 1, 1, 0, 0, 0, true⟩
    "db" "c" [(⟨[97, 74, 128, 184, 26, 216, 198, 0, 1, 183, 213, 243]⟩, .dictNil)]
    _ _ rfl (by exact List.mem_singleton.mpr rfl)

/-- A poll outcome that keeps a not-yet-seen loop running with nothing
emitted: a filtered event, or a null tick or recovered 286 failure with
a null resume token (the idle DocumentDB situation). -/
def silentTick (allowlist : List String) : Tick → Prop
  | .next (some e) _ => e.operationType ∉ allowlist
  | .next Option.none tok => tok = Option.none
  | .fail code tok => code = 286 ∧ tok = Option.none

theorem pollLoop_opts_irrel (cfg : LogCfg) (ticks : List Tick) (o1 o2 : CSOptions) (hs : Bool) :
    pollLoop cfg ticks o1 hs = pollLoop cfg ticks o2 hs := by
  induction ticks generalizing o1 o2 hs with
  | nil => rfl
  | cons tk rest ih =>
    cases tk with
    | next res tok =>
      cases res with
      | none =>
        cases tok with
        | none =>
          cases hs with
          | false => simp only [pollLoop]; exact ih o1 o2 false
          | true => rfl
        | some t => cases hs <;> rfl
      | some e =>
        by_cases he : e.operationType ∈ cfg.allowlist
        · simp only [pollLoop, he, if_true]
          rw [ih o1 o2 true]
        · simp only [pollLoop, he, if_false]
          exact ih o1 o2 hs
    | fail code tok =>
      by_cases hc : code = 286
      · subst hc
        cases tok with
        | some t => cases hs <;> rfl
        | none =>
          cases hs with
          | true => rfl
          | false => simp only [pollLoop]; exact ih o1.dropResume o2.dropResume false
      · simp [pollLoop, hc]

theorem pollLoop_silent (cfg : LogCfg) (tk : Tick) (rest : List Tick) (o1 o2 : CSOptions)
    (h : silentTick cfg.allowlist tk) :
    pollLoop cfg (tk :: rest) o1 false = pollLoop cfg rest o2 false := by
  cases tk with
  | next res tok =>
    cases res with
    | none =>
      have ht : tok = Option.none := h
      subst ht
      simp only [pollLoop]
      exact pollLoop_opts_irrel cfg rest o1 o2 false
    | some e =>
      have he : e.operationType ∉ cfg.allowlist := h
      simp only [pollLoop, he, if_false]
      exact pollLoop_opts_irrel cfg rest o1 o2 false
  | fail code tok =>
    obtain ⟨hc, ht⟩ := h
    subst hc ht
    simp only [pollLoop, if_pos rfl]
    exact pollLoop_opts_irrel cfg rest o1.dropResume o2 false

/-- Claim C1: in log-based mode, when `try_next` returns null before any
real record was emitted and the resume token is non-null, the reader
emits exactly one dummy record, whose `replication_key` is the resume
token and whose event-derived fields are all null, and terminates the
poll loop emitting nothing further, whatever the stream would have
delivered afterwards. -/
theorem C1_log_based_dummy_record (cfg : LogCfg) (pre rest : List Tick) (t : String)
    (opts : CSOptions) (hpre : ∀ tk ∈ pre, silentTick cfg.allowlist tk) :
    pollLoop cfg (pre ++ .next Option.none (some t) :: rest) opts false
        = ⟨[mkDummyRecord cfg.meta cfg.now t], Option.none⟩ ∧
      (mkDummyRecord cfg.meta cfg.now t).replication_key = t ∧
      (mkDummyRecord cfg.meta cfg.now t).object_id = Option.none ∧
      (mkDummyRecord cfg.meta cfg.now t).document = Option.none ∧
      (mkDummyRecord cfg.meta cfg.now t).update_description = Option.none ∧
      (mkDummyRecord cfg.meta cfg.now t).operation_type = Option.none ∧
      (mkDummyRecord cfg.meta cfg.now t).cluster_time = Option.none ∧
      (mkDummyRecord cfg.meta cfg.now t).ns = Option.none ∧
      (mkDummyRecord cfg.meta cfg.now t).toNamespace = Option.none := by
  refine ⟨?_, rfl, rfl, rfl, rfl, rfl, rfl, rfl, rfl⟩
  induction pre generalizing opts with
  | nil => rfl
  | cons tk pre2 ih =>
    rw [List.cons_append,
      pollLoop_silent cfg tk (pre2 ++ .next Option.none (some t) :: rest) opts opts
        (hpre tk (List.mem_cons_self tk pre2))]
    exact ih opts (fun tk2 h2 => hpre tk2 (List.mem_cons_of_mem tk h2))

/-- Witness for C1: one idle DocumentDB-style tick, then the
token-bearing null tick, followed by an event that is never reached. -/
theorem C1_log_based_dummy_record_witness :
    pollLoop ⟨["insert"], false, ⟨2024, 1, 1, 0, 0, 0, true⟩⟩
        ([.next Option.none Option.none]
          ++ .next Option.none (some "resume-token")
            :: [.fail 7 Option.none])
        ⟨Option.none⟩ false
      = ⟨[mkDummyRecord false ⟨2024, 1, 1, 0, 0, 0, true⟩ "resume-token"], Option.none⟩ :=
  (C1_log_based_dummy_record ⟨["insert"], false, ⟨2024, 1, 1, 0, 0, 0, true⟩⟩
    [.next Option.none Option.none] [.fail 7 Option.none] "resume-token" ⟨Option.none⟩
    (by intro tk h; simp only [List.mem_singleton] at h; subst h; exact rfl)).1

/-- Claim C5: an OperationFailure with code 286 is never fatal, at the
initial `watch` or at `try_next`: the reader drops the resume options,
reopens and goes on polling with the failed tick treated as null, while
any other code at `try_next` ends the run with that failure
propagated. -/
theorem C5_resume_token_invalidated_recovery (opts : CSOptions) (allowModify adminOk : Bool)
    (errmsg : String) (cfg : LogCfg) (tok : Option String) (rest : List Tick)
    (hasSeen : Bool) (code : Int) (hcode : code ≠ 286) :
    openChangeStream opts allowModify (.fail 286 errmsg) adminOk = .ok opts.dropResume ∧
      pollLoop cfg (.fail 286 tok :: rest) opts hasSeen
        = pollLoop cfg (.next Option.none tok :: rest) opts.dropResume hasSeen ∧
      pollLoop cfg (.fail code tok :: rest) opts hasSeen = ⟨[], some code⟩ := by
  refine ⟨?_, ?_, ?_⟩
  · simp [openChangeStream]
  · cases tok with
    | none =>
      cases hasSeen with
      | false =>
        simp only [pollLoop]
        exact pollLoop_opts_irrel cfg rest opts.dropResume opts.dropResume false
      | true => rfl
    | some t => cases hasSeen <;> rfl
  · simp [pollLoop, hcode]

/-- Witness for C5 with a concrete failure trace. -/
theorem C5_resume_token_invalidated_recovery_witness :
    openChangeStream ⟨some (.resumeAfter, "tok")⟩ false (.fail 286 "resume point lost") true
        = .ok (CSOptions.dropResume ⟨some (.resumeAfter, "tok")⟩) ∧
      pollLoop ⟨["insert"], false, ⟨2024, 1, 1, 0, 0, 0, true⟩⟩
          (.fail 286 (some "t2") :: []) ⟨some (.resumeAfter, "tok")⟩ false
        = pollLoop ⟨["insert"], false, ⟨2024, 1, 1, 0, 0, 0, true⟩⟩
          (.next Option.none (some "t2") :: [])
          (CSOptions.dropResume ⟨some (.resumeAfter, "tok")⟩) false ∧
      pollLoop ⟨["insert"], false, ⟨2024, 1, 1, 0, 0, 0, true⟩⟩
          (.fail 251 (some "t2") :: []) ⟨some (.resumeAfter, "tok")⟩ false
        = ⟨[], some 251⟩ :=
  C5_resume_token_invalidated_recovery ⟨some (.resumeAfter, "tok")⟩ false true
    "resume point lost" ⟨["insert"], false, ⟨2024, 1, 1, 0, 0, 0, true⟩⟩ (some "t2") []
    false 251 (by decide)

/-- Claim C8: a delivered change event outside the allowlist produces no
record; one inside produces exactly one record, whose replication key is
the resume token of the event, whose document is the `fullDocument`
value with `documentKey` as the fallback when the key is absent (null
when both are), and which carries `_sdc_deleted_at` equal to the cluster
time when metadata is enabled and the operation is a delete. -/
theorem C8_log_based_event_record (cfg : LogCfg) (e : ChangeEvent) (tok : Option String)
    (rest : List Tick) (opts : CSOptions) (hasSeen : Bool) :
    (e.operationType ∉ cfg.allowlist →
      pollLoop cfg (.next (some e) tok :: rest) opts hasSeen
        = pollLoop cfg rest opts hasSeen) ∧
    (e.operationType ∈ cfg.allowlist →
      pollLoop cfg (.next (some e) tok :: rest) opts hasSeen
        = ⟨mkLogBasedRecord cfg.meta cfg.now e :: (pollLoop cfg rest opts true).emitted,
           (pollLoop cfg rest opts true).failure⟩) ∧
    (mkLogBasedRecord cfg.meta cfg.now e).replication_key = e.idData ∧
    (∀ v, e.fullDocument = some v → (mkLogBasedRecord cfg.meta cfg.now e).document = v) ∧
    (e.fullDocument = Option.none →
      (mkLogBasedRecord cfg.meta cfg.now e).document = e.documentKey) ∧
    (cfg.meta = true → e.operationType = "delete" →
      (mkLogBasedRecord cfg.meta cfg.now e).sdcDeletedAt = some e.clusterTime) := by
  refine ⟨fun he => ?_, fun he => ?_, rfl, fun v hv => ?_, fun hv => ?_, fun hm hd => ?_⟩
  · simp [pollLoop, he]
  · simp [pollLoop, he]
  · simp [mkLogBasedRecord, hv]
  · simp only [mkLogBasedRecord, hv]
    cases e.documentKey <;> rfl
  · simp [mkLogBasedRecord, hm, hd]

/-- Witness for C8: the delete-event scenario of the spec, metadata
enabled, over an empty remaining trace. -/
theorem C8_log_based_event_record_witness :
    pollLoop ⟨["create", "delete", "insert", "replace", "update"], true,
          ⟨2024, 1, 1, 0, 0, 0, true⟩⟩
        (.next (some ⟨"826F", "delete", ⟨2021, 9, 22, 1, 2, 48, true⟩, Option.none,
            some (.dictCons "_id" (.objectId "614a80b81ad8c60001b7d5f3") .dictNil),
            Option.none, "db", "c", Option.none⟩) (some "826F") :: [])
        ⟨Option.none⟩ false
      = ⟨[mkLogBasedRecord true ⟨2024, 1, 1, 0, 0, 0, true⟩
          ⟨"826F", "delete", ⟨2021, 9, 22, 1, 2, 48, true⟩, Option.none,
            some (.dictCons "_id" (.objectId "614a80b81ad8c60001b7d5f3") .dictNil),
            Option.none, "db", "c", Option.none⟩], Option.none⟩ ∧
    (mkLogBasedRecord true ⟨2024, 1, 1, 0, 0, 0, true⟩
        ⟨"826F", "delete", ⟨2021, 9, 22, 1, 2, 48, true⟩, Option.none,
          some (.dictCons "_id" (.objectId "614a80b81ad8c60001b7d5f3") .dictNil),
          Option.none, "db", "c", Option.none⟩).document
      = some (.dictCons "_id" (.objectId "614a80b81ad8c60001b7d5f3") .dictNil) ∧
    (mkLogBasedRecord true ⟨2024, 1, 1, 0, 0, 0, true⟩
        ⟨"826F", "delete", ⟨2021, 9, 22, 1, 2, 48, true⟩, Option.none,
          some (.dictCons "_id" (.objectId "614a80b81ad8c60001b7d5f3") .dictNil),
          Option.none, "db", "c", Option.none⟩).sdcDeletedAt
      = some ⟨2021, 9, 22, 1, 2, 48, true⟩ :=
  ⟨((C8_log_based_event_record ⟨["create", "delete", "insert", "replace", "update"], true,
        ⟨2024, 1, 1, 0, 0, 0, true⟩⟩
      ⟨"826F", "delete", ⟨2021, 9, 22, 1, 2, 48, true⟩, Option.none,
        some (.dictCons "_id" (.objectId "614a80b81ad8c60001b7d5f3") .dictNil),
        Option.none, "db", "c", Option.none⟩ (some "826F") [] ⟨Option.none⟩ false).2.1
    (by decide)).trans rfl,
   (C8_log_based_event_record ⟨["create", "delete", "insert", "replace", "update"], true,
        ⟨2024, 1, 1, 0, 0, 0, true⟩⟩
      ⟨"826F", "delete", ⟨2021, 9, 22, 1, 2, 48, true⟩, Option.none,
        some (.dictCons "_id" (.objectId "614a80b81ad8c60001b7d5f3") .dictNil),
        Option.none, "db", "c", Option.none⟩ (some "826F") [] ⟨Option.none⟩ false).2.2.2.2.1
    rfl,
   (C8_log_based_event_record ⟨["create", "delete", "insert", "replace", "update"], true,
        ⟨2024, 1, 1, 0, 0, 0, true⟩⟩
      ⟨"826F", "delete", ⟨2021, 9, 22, 1, 2, 48, true⟩, Option.none,
        some (.dictCons "_id" (.objectId "614a80b81ad8c60001b7d5f3") .dictNil),
        Option.none, "db", "c", Option.none⟩ (some "826F") [] ⟨Option.none⟩ false).2.2.2.2.2
    rfl rfl⟩

/-- Heap well-formedness: every allocated address is below the
allocation counter. -/
def Heap.wf (h : Heap) : Prop := ∀ p ∈ h.cells, p.1 < h.next

/-- A value whose reference, if it is one, is at least `n`. -/
def hvalRefGe (n : Nat) : HVal → Prop
  | .scalar _ => True
  | .ref a => n ≤ a

/-- A cell all of whose references are at least `n`. -/
def cellRefGe (n : Nat) : HCell → Prop
  | .dcell fs => ∀ p ∈ fs, hvalRefGe n p.2
  | .lcell vs => ∀ v ∈ vs, hvalRefGe n v

/-- A sanitizer result all of whose references are at least `n`. -/
def sanOutRefGe (n : Nat) : SanOut → Prop
  | .one v => hvalRefGe n v
  | .fields fs => ∀ p ∈ fs, hvalRefGe n p.2
  | .items vs => ∀ v ∈ vs, hvalRefGe n v

theorem hvalRefGe_mono (n m : Nat) (v : HVal) (hnm : n ≤ m) (hv : hvalRefGe m v) :
    hvalRefGe n v := by
  cases v with
  | scalar s => trivial
  | ref a => exact le_trans hnm hv

theorem cellRefGe_mono (n m : Nat) (c : HCell) (hnm : n ≤ m) (hc : cellRefGe m c) :
    cellRefGe n c := by
  cases c with
  | dcell fs => exact fun p hp => hvalRefGe_mono n m p.2 hnm (hc p hp)
  | lcell vs => exact fun v hv => hvalRefGe_mono n m v hnm (hc v hv)

theorem heapGet_alloc_ne (h : Heap) (c : HCell) (b : Nat) (hb : b ≠ h.next) :
    heapGet (heapAlloc h c).1 b = heapGet h b := by
  simp only [heapGet, heapAlloc, List.find?]
  rw [show (h.next == b) = false by simpa using fun hgoal => hb hgoal.symm]

theorem heapGet_alloc_self (h : Heap) (c : HCell) :
    heapGet (heapAlloc h c).1 h.next = some c := by
  simp [heapGet, heapAlloc, List.find?]

theorem Heap.wf_alloc (h : Heap) (c : HCell) (hwf : h.wf) : (heapAlloc h c).1.wf := by
  intro p hp
  simp only [heapAlloc, List.mem_cons] at hp ⊢
  rcases hp with hp | hp
  · simp [hp]
  · exact Nat.lt_succ_of_lt (hwf p hp)

theorem heapGet_lt_next (h : Heap) (b : Nat) (c : HCell) (hwf : h.wf)
    (hg : heapGet h b = some c) : b < h.next := by
  unfold heapGet at hg
  cases hf : h.cells.find? (fun p => p.1 == b) with
  | none => rw [hf] at hg; exact absurd hg (by simp)
  | some p =>
    have hmem := List.mem_of_find?_eq_some hf
    have hbeq := List.find?_some hf
    simp only [beq_iff_eq] at hbeq
    exact hbeq ▸ hwf p hmem


/-- Frame and freshness facts of one heap-sanitizer run over a
well-formed heap: the heap stays well-formed, the counter grows, every
pre-existing cell is untouched, the result refers only to fresh
addresses, and every fresh cell refers only to fresh addresses. -/
theorem sanitizeHeap_frame (fuel : Nat) (h : Heap) (arg : SanArg) (h2 : Heap) (out : SanOut)
    (hwf : Heap.wf h) (hrun : sanitizeHeap fuel h arg = some (h2, out)) :
    Heap.wf h2 ∧ h.next ≤ h2.next ∧
    (∀ b, b < h.next → heapGet h2 b = heapGet h b) ∧
    sanOutRefGe h.next out ∧
    (∀ b c, h.next ≤ b → heapGet h2 b = some c → cellRefGe h.next c) := by
  induction fuel generalizing h arg h2 out with
  | zero => exact absurd hrun (by simp [sanitizeHeap])
  | succ fuel ih =>
    cases arg with
    | one v =>
      cases v with
      | scalar s =>
        simp only [sanitizeHeap, Option.some.injEq, Prod.mk.injEq] at hrun
        obtain ⟨rfl, rfl⟩ := hrun
        exact ⟨hwf, le_refl _, fun _ _ => rfl, trivial,
          fun b c hb hg => absurd (heapGet_lt_next h b c hwf hg) (by omega)⟩
      | ref a =>
        simp only [sanitizeHeap] at hrun
        split at hrun
        · rename_i fs heq
          split at hrun
          · rename_i h3 fs2 hr1
            simp only [Option.some.injEq, Prod.mk.injEq] at hrun
            obtain ⟨rfl, rfl⟩ := hrun
            obtain ⟨w3, n3, pres3, ref3, cell3⟩ := ih h (.fields fs) h3 (.fields fs2) hwf hr1
            refine ⟨Heap.wf_alloc h3 _ w3, by simp [heapAlloc]; omega, ?_, ?_, ?_⟩
            · intro b hb
              rw [heapGet_alloc_ne h3 _ b (by omega), pres3 b hb]
            · exact n3
            · intro b c hb hg
              by_cases hb3 : b = h3.next
              · subst hb3
                rw [heapGet_alloc_self h3 _] at hg
                cases hg
                exact ref3
              · rw [heapGet_alloc_ne h3 _ b hb3] at hg
                exact cell3 b c hb hg
          · exact absurd hrun (by simp)
        · rename_i vs heq
          split at hrun
          · rename_i h3 vs2 hr1
            simp only [Option.some.injEq, Prod.mk.injEq] at hrun
            obtain ⟨rfl, rfl⟩ := hrun
            obtain ⟨w3, n3, pres3, ref3, cell3⟩ := ih h (.items vs) h3 (.items vs2) hwf hr1
            refine ⟨Heap.wf_alloc h3 _ w3, by simp [heapAlloc]; omega, ?_, ?_, ?_⟩
            · intro b hb
              rw [heapGet_alloc_ne h3 _ b (by omega), pres3 b hb]
            · exact n3
            · intro b c hb hg
              by_cases hb3 : b = h3.next
              · subst hb3
                rw [heapGet_alloc_self h3 _] at hg
                cases hg
                exact ref3
              · rw [heapGet_alloc_ne h3 _ b hb3] at hg
                exact cell3 b c hb hg
          · exact absurd hrun (by simp)
        · exact absurd hrun (by simp)
    | fields fs =>
      cases fs with
      | nil =>
        simp only [sanitizeHeap, Option.some.injEq, Prod.mk.injEq] at hrun
        obtain ⟨rfl, rfl⟩ := hrun
        exact ⟨hwf, le_refl _, fun _ _ => rfl, by simp [sanOutRefGe],
          fun b c hb hg => absurd (heapGet_lt_next h b c hwf hg) (by omega)⟩
      | cons kv rest =>
        obtain ⟨k, v⟩ := kv
        simp only [sanitizeHeap] at hrun
        split at hrun
        · rename_i h3 v2 hr1
          split at hrun
          · rename_i h4 rest2 hr2
            simp only [Option.some.injEq, Prod.mk.injEq] at hrun
            obtain ⟨rfl, rfl⟩ := hrun
            obtain ⟨w3, n3, pres3, ref3, cell3⟩ := ih h (.one v) h3 (.one v2) hwf hr1
            obtain ⟨w4, n4, pres4, ref4, cell4⟩ := ih h3 (.fields rest) h4 (.fields rest2) w3 hr2
            refine ⟨w4, le_trans n3 n4, ?_, ?_, ?_⟩
            · intro b hb
              rw [pres4 b (by omega), pres3 b hb]
            · intro p hp
              rcases List.mem_cons.mp hp with hp | hp
              · subst hp
                exact ref3
              · exact hvalRefGe_mono h.next h3.next p.2 n3 (ref4 p hp)
            · intro b c hb hg
              by_cases hb3 : b < h3.next
              · rw [pres4 b hb3] at hg
                exact cell3 b c hb hg
              · exact cellRefGe_mono h.next h3.next c n3 (cell4 b c (by omega) hg)
          · exact absurd hrun (by simp)
        · exact absurd hrun (by simp)
    | items vs =>
      cases vs with
      | nil =>
        simp only [sanitizeHeap, Option.some.injEq, Prod.mk.injEq] at hrun
        obtain ⟨rfl, rfl⟩ := hrun
        exact ⟨hwf, le_refl _, fun _ _ => rfl, by simp [sanOutRefGe],
          fun b c hb hg => absurd (heapGet_lt_next h b c hwf hg) (by omega)⟩
      | cons v rest =>
        simp only [sanitizeHeap] at hrun
        split at hrun
        · rename_i h3 v2 hr1
          split at hrun
          · rename_i h4 rest2 hr2
            simp only [Option.some.injEq, Prod.mk.injEq] at hrun
            obtain ⟨rfl, rfl⟩ := hrun
            obtain ⟨w3, n3, pres3, ref3, cell3⟩ := ih h (.one v) h3 (.one v2) hwf hr1
            obtain ⟨w4, n4, pres4, ref4, cell4⟩ := ih h3 (.items rest) h4 (.items rest2) w3 hr2
            refine ⟨w4, le_trans n3 n4, ?_, ?_, ?_⟩
            · intro b hb
              rw [pres4 b (by omega), pres3 b hb]
            · intro w hw
              rcases List.mem_cons.mp hw with hw | hw
              · subst hw
                exact ref3
              · exact hvalRefGe_mono h.next h3.next w n3 (ref4 w hw)
            · intro b c hb hg
              by_cases hb3 : b < h3.next
              · rw [pres4 b hb3] at hg
                exact cell3 b c hb hg
              · exact cellRefGe_mono h.next h3.next c n3 (cell4 b c (by omega) hg)
          · exact absurd hrun (by simp)
        · exact absurd hrun (by simp)

theorem heapSet_frame (h : Heap) (a : Nat) (c : HCell) :
    heapDom (heapSet h a c) = heapDom h ∧ (heapSet h a c).next = h.next := by
  refine ⟨?_, rfl⟩
  unfold heapDom heapSet
  simp only [List.map_map]
  apply List.map_congr_left
  intro p _
  by_cases hp : p.1 = a
  · simp [hp]
  · simp [hp]

theorem heapSetField_frame (h : Heap) (a : Nat) (k : String) :
    heapDom (heapSetField h a k) = heapDom h ∧ (heapSetField h a k).next = h.next := by
  unfold heapSetField
  split
  · exact heapSet_frame h a _
  · exact ⟨rfl, rfl⟩

theorem heapSetItem_frame (h : Heap) (a : Nat) (i : Nat) :
    heapDom (heapSetItem h a i) = heapDom h ∧ (heapSetItem h a i).next = h.next := by
  unfold heapSetItem
  split
  · exact heapSet_frame h a _
  · exact ⟨rfl, rfl⟩

/-- The in-place rewriter allocates nothing and keeps the very same
addresses: domain and allocation counter are unchanged. -/
theorem rrHeap_frame (fuel : Nat) (h : Heap) (arg : RRArg) (h2 : Heap)
    (hrun : rrHeap fuel h arg = some h2) :
    heapDom h2 = heapDom h ∧ h2.next = h.next := by
  induction fuel generalizing h arg h2 with
  | zero => exact absurd hrun (by simp [rrHeap])
  | succ fuel ih =>
    cases arg with
    | dict a =>
      simp only [rrHeap] at hrun
      split at hrun
      · exact ih h _ h2 hrun
      · exact absurd hrun (by simp)
    | fields a fs =>
      cases fs with
      | nil =>
        simp only [rrHeap, Option.some.injEq] at hrun
        subst hrun
        exact ⟨rfl, rfl⟩
      | cons kv rest =>
        obtain ⟨k, v⟩ := kv
        simp only [rrHeap] at hrun
        by_cases hinf : isInfScalar v = true
        · rw [if_pos hinf] at hrun
          obtain ⟨d1, d2⟩ := ih _ (.fields a rest) h2 hrun
          have hf := heapSetField_frame h a k
          exact ⟨d1.trans hf.1, d2.trans hf.2⟩
        · rw [if_neg hinf] at hrun
          split at hrun
          · rename_i b
            split at hrun
            · rename_i vs heqb
              split at hrun
              · rename_i h3 hr1
                obtain ⟨d1, d2⟩ := ih h3 (.fields a rest) h2 hrun
                obtain ⟨e1, e2⟩ := ih h (.items b 0 vs) h3 hr1
                exact ⟨d1.trans e1, d2.trans e2⟩
              · exact absurd hrun (by simp)
            · rename_i fs2 heqb
              split at hrun
              · rename_i h3 hr1
                obtain ⟨d1, d2⟩ := ih h3 (.fields a rest) h2 hrun
                obtain ⟨e1, e2⟩ := ih h (.dict b) h3 hr1
                exact ⟨d1.trans e1, d2.trans e2⟩
              · exact absurd hrun (by simp)
            · exact absurd hrun (by simp)
          · exact ih h (.fields a rest) h2 hrun
    | items a i vs =>
      cases vs with
      | nil =>
        simp only [rrHeap, Option.some.injEq] at hrun
        subst hrun
        exact ⟨rfl, rfl⟩
      | cons v rest =>
        simp only [rrHeap] at hrun
        split at hrun
        · rename_i b
          split at hrun
          · rename_i fs2 heqb
            split at hrun
            · rename_i h3 hr1
              obtain ⟨d1, d2⟩ := ih h3 (.items a (i + 1) rest) h2 hrun
              obtain ⟨e1, e2⟩ := ih h (.dict b) h3 hr1
              exact ⟨d1.trans e1, d2.trans e2⟩
            · exact absurd hrun (by simp)
          · exact ih h (.items a (i + 1) rest) h2 hrun
        · rename_i s
          by_cases hinf : isInfScalar (.scalar s) = true
          · rw [if_pos hinf] at hrun
            obtain ⟨d1, d2⟩ := ih _ (.items a (i + 1) rest) h2 hrun
            have hf := heapSetItem_frame h a i
            exact ⟨d1.trans hf.1, d2.trans hf.2⟩
          · rw [if_neg hinf] at hrun
            exact ih h (.items a (i + 1) rest) h2 hrun

/-- Claim C10: `sanitize_doc` never mutates its argument - after a
successful run every pre-existing heap cell reads back unchanged, the
returned value refers (when it is a dict or list) to a freshly
allocated address, and every freshly allocated cell refers only to
freshly allocated cells, so the returned tree is a wholly new copy -
whereas `recursive_replace_empty_in_dict` allocates nothing, rewrites
the existing cells in place, and returns the very address it was
given. -/
theorem C10_mutation_discipline (fuel : Nat) (h hs2 hr2 : Heap) (v r : HVal) (a ret : Nat)
    (hwf : Heap.wf h)
    (hsan : sanitize_doc_heap fuel h v = some (hs2, r))
    (hrr : recursive_replace_empty_in_dict fuel h a = some (hr2, ret)) :
    (∀ b c, heapGet h b = some c → heapGet hs2 b = some c) ∧
    (∀ b, r = .ref b → h.next ≤ b) ∧
    (∀ b c, h.next ≤ b → heapGet hs2 b = some c → cellRefGe h.next c) ∧
    ret = a ∧ heapDom hr2 = heapDom h ∧ hr2.next = h.next := by
  unfold sanitize_doc_heap at hsan
  unfold recursive_replace_empty_in_dict at hrr
  cases hr : rrHeap fuel h (.dict a) with
  | none => rw [hr] at hrr; exact absurd hrr (by simp)
  | some h3 =>
    rw [hr] at hrr
    simp only [Option.map_some', Option.some.injEq, Prod.mk.injEq] at hrr
    obtain ⟨rfl, rfl⟩ := hrr
    obtain ⟨R1, R2⟩ := rrHeap_frame fuel h (.dict a) h3 hr
    cases hs : sanitizeHeap fuel h (.one v) with
    | none => rw [hs] at hsan; exact absurd hsan (by simp)
    | some p =>
      rw [hs] at hsan
      obtain ⟨h4, out4⟩ := p
      cases out4 with
      | fields _ => exact absurd hsan (by simp)
      | items _ => exact absurd hsan (by simp)
      | one v2 =>
        simp only [Option.some.injEq, Prod.mk.injEq] at hsan
        obtain ⟨rfl, rfl⟩ := hsan
        obtain ⟨w4, n4, pres4, ref4, cell4⟩ :=
          sanitizeHeap_frame fuel h (.one v) h4 (.one v2) hwf hs
        refine ⟨?_, ?_, cell4, rfl, R1, R2⟩
        · intro b c hg
          rw [pres4 b (heapGet_lt_next h b c hwf hg)]
          exact hg
        · intro b hb
          subst hb
          exact ref4

/-- Witness for C10: a one-entry dict holding the positive infinity.
The sanitizer copies it to a fresh address 1 leaving address 0 intact;
the in-place rewriter nulls the entry at address 0 and returns 0. -/
theorem C10_mutation_discipline_witness :
    heapGet (⟨2, [(1, .dcell [("x", .scalar (.float .inf))]),
          (0, .dcell [("x", .scalar (.float .inf))])]⟩ : Heap) 0
        = some (.dcell [("x", .scalar (.float .inf))]) ∧
      (1 : Nat) ≤ 1 ∧
      (0 : Nat) = 0 ∧
      heapDom (⟨1, [(0, .dcell [("x", .scalar .none)])]⟩ : Heap)
        = heapDom (⟨1, [(0, .dcell [("x", .scalar (.float .inf))])]⟩ : Heap) :=
  ⟨(C10_mutation_discipline 4 ⟨1, [(0, .dcell [("x", .scalar (.float .inf))])]⟩
      ⟨2, [(1, .dcell [("x", .scalar (.float .inf))]),
        (0, .dcell [("x", .scalar (.float .inf))])]⟩
      ⟨1, [(0, .dcell [("x", .scalar .none)])]⟩
      (.ref 0) (.ref 1) 0 0
      (by intro p hp; simp only [List.mem_singleton] at hp; subst hp; exact Nat.zero_lt_one)
      rfl rfl).1 0 _ rfl,
   (C10_mutation_discipline 4 ⟨1, [(0, .dcell [("x", .scalar (.float .inf))])]⟩
      ⟨2, [(1, .dcell [("x", .scalar (.float .inf))]),
        (0, .dcell [("x", .scalar (.float .inf))])]⟩
      ⟨1, [(0, .dcell [("x", .scalar .none)])]⟩
      (.ref 0) (.ref 1) 0 0
      (by intro p hp; simp only [List.mem_singleton] at hp; subst hp; exact Nat.zero_lt_one)
      rfl rfl).2.1 1 rfl,
   (C10_mutation_discipline 4 ⟨1, [(0, .dcell [("x", .scalar (.float .inf))])]⟩
      ⟨2, [(1, .dcell [("x", .scalar (.float .inf))]),
        (0, .dcell [("x", .scalar (.float .inf))])]⟩
      ⟨1, [(0, .dcell [("x", .scalar .none)])]⟩
      (.ref 0) (.ref 1) 0 0
      (by intro p hp; simp only [List.mem_singleton] at hp; subst hp; exact Nat.zero_lt_one)
      rfl rfl).2.2.2.1,
   (C10_mutation_discipline 4 ⟨1, [(0, .dcell [("x", .scalar (.float .inf))])]⟩
      ⟨2, [(1, .dcell [("x", .scalar (.float .inf))]),
        (0, .dcell [("x", .scalar (.float .inf))])]⟩
      ⟨1, [(0, .dcell [("x", .scalar .none)])]⟩
      (.ref 0) (.ref 1) 0 0
      (by intro p hp; simp only [List.mem_singleton] at hp; subst hp; exact Nat.zero_lt_one)
      rfl rfl).2.2.2.2.1⟩

/-! Parser inversion lemmas for the IncrementalId codec. -/

theorem takeDigits_spec (n : Nat) (cs ds rest : List Char)
    (h : takeDigits n cs = some (ds, rest)) :
    cs = ds ++ rest ∧ ds.length = n ∧ ∀ c ∈ ds, c.isDigit = true := by
  induction n generalizing cs ds with
  | zero =>
    simp only [takeDigits, Option.some.injEq, Prod.mk.injEq] at h
    obtain ⟨rfl, rfl⟩ := h
    simp
  | succ n ih =>
    cases cs with
    | nil => exact absurd h (by simp [takeDigits])
    | cons c cs2 =>
      simp only [takeDigits] at h
      by_cases hc : c.isDigit
      · rw [if_pos hc] at h
        cases h2 : takeDigits n cs2 with
        | none => rw [h2] at h; exact absurd h (by simp)
        | some p =>
          rw [h2] at h
          simp only [Option.map_some', Option.some.injEq, Prod.mk.injEq] at h
          obtain ⟨rfl, rfl⟩ := h
          obtain ⟨e1, e2, e3⟩ := ih cs2 p.1 h2
          refine ⟨by rw [List.cons_append, ← e1], by simp [e2], ?_⟩
          intro x hx
          rcases List.mem_cons.mp hx with hx | hx
          · subst hx
            exact hc
          · exact e3 x hx
      · rw [if_neg hc] at h
        exact absurd h (by simp)

theorem takeLowerHex_spec (n : Nat) (cs ds rest : List Char)
    (h : takeLowerHex n cs = some (ds, rest)) :
    cs = ds ++ rest ∧ ds.length = n := by
  induction n generalizing cs ds with
  | zero =>
    simp only [takeLowerHex, Option.some.injEq, Prod.mk.injEq] at h
    obtain ⟨rfl, rfl⟩ := h
    simp
  | succ n ih =>
    cases cs with
    | nil => exact absurd h (by simp [takeLowerHex])
    | cons c cs2 =>
      simp only [takeLowerHex] at h
      by_cases hc : isLowerHexDigit c = true
      · rw [if_pos hc] at h
        cases h2 : takeLowerHex n cs2 with
        | none => rw [h2] at h; exact absurd h (by simp)
        | some p =>
          rw [h2] at h
          simp only [Option.map_some', Option.some.injEq, Prod.mk.injEq] at h
          obtain ⟨rfl, rfl⟩ := h
          obtain ⟨e1, e2⟩ := ih cs2 p.1 h2
          exact ⟨by rw [List.cons_append, ← e1], by simp [e2]⟩
      · rw [if_neg hc] at h
        exact absurd h (by simp)

theorem expectChar_spec (c : Char) (cs rest : List Char) (h : expectChar c cs = some rest) :
    cs = c :: rest := by
  cases cs with
  | nil => exact absurd h (by simp [expectChar])
  | cons x xs =>
    simp only [expectChar] at h
    by_cases hx : x = c
    · rw [if_pos hx] at h
      cases h
      rw [hx]
    · rw [if_neg hx] at h
      exact absurd h (by simp)

theorem expectChars_spec (es cs rest : List Char) (h : expectChars es cs = some rest) :
    cs = es ++ rest := by
  induction es generalizing cs with
  | nil =>
    simp only [expectChars, Option.some.injEq] at h
    rw [h]
    rfl
  | cons e es2 ih =>
    simp only [expectChars] at h
    cases h1 : expectChar e cs with
    | none => rw [h1] at h; exact absurd h (by simp)
    | some cs2 =>
      rw [h1] at h
      simp only [Option.some_bind] at h
      rw [expectChar_spec e cs cs2 h1, ih cs2 h]
      rfl

/-! Digit rendering round-trips. -/

theorem char_isDigit_toNat (c : Char) (h : c.isDigit = true) :
    48 ≤ c.toNat ∧ c.toNat ≤ 57 := by
  simp [Char.isDigit] at h
  exact ⟨h.1, h.2⟩

theorem digitChar_ofNat (n : Nat) (h1 : 48 ≤ n) (h2 : n ≤ 57) :
    digitChar (n - 48) = Char.ofNat n := by
  interval_cases n <;> decide

theorem digitChar_isDigit (c : Char) (h : c.isDigit = true) :
    digitChar (c.toNat - 48) = c := by
  obtain ⟨h1, h2⟩ := char_isDigit_toNat c h
  rw [digitChar_ofNat c.toNat h1 h2, Char.ofNat_toNat]

theorem digitChar_mod (n : Nat) : digitChar (n % 10) = digitChar n := by
  unfold digitChar
  rw [show n % 10 % 10 = n % 10 by omega]

theorem pad2_eq (n a b : Nat) (hn : n % 100 = a * 10 + b) (ha : a ≤ 9) (hb : b ≤ 9) :
    pad2 n = [digitChar a, digitChar b] := by
  unfold pad2
  rw [← digitChar_mod (n / 10), show n / 10 % 10 = a by omega]
  rw [← digitChar_mod n, show n % 10 = b by omega]

theorem pad4_eq (n a b c d : Nat) (hn : n = ((a * 10 + b) * 10 + c) * 10 + d)
    (ha : a ≤ 9) (hb : b ≤ 9) (hc : c ≤ 9) (hd : d ≤ 9) :
    pad4 n = [digitChar a, digitChar b, digitChar c, digitChar d] := by
  unfold pad4
  rw [pad2_eq (n / 100) a b (by omega) ha hb, pad2_eq n c d (by omega) hc hd]
  rfl

theorem list_len4 (l : List Char) (h : l.length = 4) :
    ∃ a b c d, l = [a, b, c, d] := by
  rcases l with _ | ⟨a, _ | ⟨b, _ | ⟨c, _ | ⟨d, _ | _⟩⟩⟩⟩ <;> simp_all

theorem list_len2 (l : List Char) (h : l.length = 2) :
    ∃ a b, l = [a, b] := by
  rcases l with _ | ⟨a, _ | ⟨b, _ | _⟩⟩ <;> simp_all

theorem digitsToNat_four (a b c d : Char) :
    digitsToNat [a, b, c, d]
      = (((a.toNat - 48) * 10 + (b.toNat - 48)) * 10 + (c.toNat - 48)) * 10
          + (d.toNat - 48) := by
  simp [digitsToNat, List.foldl]

theorem digitsToNat_two (a b : Char) :
    digitsToNat [a, b] = (a.toNat - 48) * 10 + (b.toNat - 48) := by
  simp [digitsToNat, List.foldl]

theorem pad4_digitsToNat (a b c d : Char) (ha : a.isDigit = true) (hb : b.isDigit = true)
    (hc : c.isDigit = true) (hd : d.isDigit = true) :
    pad4 (digitsToNat [a, b, c, d]) = [a, b, c, d] := by
  obtain ⟨ha1, ha2⟩ := char_isDigit_toNat a ha
  obtain ⟨hb1, hb2⟩ := char_isDigit_toNat b hb
  obtain ⟨hc1, hc2⟩ := char_isDigit_toNat c hc
  obtain ⟨hd1, hd2⟩ := char_isDigit_toNat d hd
  rw [pad4_eq (digitsToNat [a, b, c, d]) (a.toNat - 48) (b.toNat - 48) (c.toNat - 48)
    (d.toNat - 48) (by rw [digitsToNat_four]) (by omega) (by omega) (by omega) (by omega)]
  rw [digitChar_isDigit a ha, digitChar_isDigit b hb, digitChar_isDigit c hc,
    digitChar_isDigit d hd]

theorem pad2_digitsToNat (a b : Char) (ha : a.isDigit = true) (hb : b.isDigit = true) :
    pad2 (digitsToNat [a, b]) = [a, b] := by
  obtain ⟨ha1, ha2⟩ := char_isDigit_toNat a ha
  obtain ⟨hb1, hb2⟩ := char_isDigit_toNat b hb
  rw [pad2_eq (digitsToNat [a, b]) (a.toNat - 48) (b.toNat - 48)
    (by rw [digitsToNat_two]; omega) (by omega) (by omega)]
  rw [digitChar_isDigit a ha, digitChar_isDigit b hb]

/-- Inversion of the restricted `fromisoformat` model: an aware result
renders back, through `isoformat`, to exactly the characters parsed. -/
theorem fromisoformatModel_utc_inv (cs : List Char) (d : PyDatetime)
    (h : fromisoformatModel cs = some d) (htz : d.tzUtc = true) :
    isoChars d = cs := by
  simp only [fromisoformatModel] at h
  cases hy : takeDigits 4 cs with
  | none => rw [hy] at h; exact absurd h (by simp)
  | some py =>
    rw [hy] at h
    obtain ⟨yc, cs1⟩ := py
    simp only [Option.bind_eq_bind, Option.some_bind] at h
    cases h1 : expectChar '-' cs1 with
    | none => rw [h1] at h; exact absurd h (by simp)
    | some cs2 =>
      rw [h1] at h
      simp only [Option.bind_eq_bind, Option.some_bind] at h
      cases hm : takeDigits 2 cs2 with
      | none => rw [hm] at h; exact absurd h (by simp)
      | some pm =>
        rw [hm] at h
        obtain ⟨mc, cs3⟩ := pm
        simp only [Option.bind_eq_bind, Option.some_bind] at h
        cases h2 : expectChar '-' cs3 with
        | none => rw [h2] at h; exact absurd h (by simp)
        | some cs4 =>
          rw [h2] at h
          simp only [Option.bind_eq_bind, Option.some_bind] at h
          cases hd : takeDigits 2 cs4 with
          | none => rw [hd] at h; exact absurd h (by simp)
          | some pd =>
            rw [hd] at h
            obtain ⟨dc, cs5⟩ := pd
            simp only [Option.bind_eq_bind, Option.some_bind] at h
            split at h
            · cases cs5 with
              | nil =>
                simp only [Option.some.injEq] at h
                rw [← h] at htz
                exact absurd htz (by simp)
              | cons c5 cs5' =>
                simp only [] at h
                cases h3 : expectChar 'T' (c5 :: cs5') with
                | none => rw [h3] at h; exact absurd h (by simp)
                | some cs6 =>
                  rw [h3] at h
                  simp only [Option.bind_eq_bind, Option.some_bind] at h
                  cases hh : takeDigits 2 cs6 with
                  | none => rw [hh] at h; exact absurd h (by simp)
                  | some ph =>
                    rw [hh] at h
                    obtain ⟨hc, cs7⟩ := ph
                    simp only [Option.bind_eq_bind, Option.some_bind] at h
                    cases h4 : expectChar ':' cs7 with
                    | none => rw [h4] at h; exact absurd h (by simp)
                    | some cs8 =>
                      rw [h4] at h
                      simp only [Option.bind_eq_bind, Option.some_bind] at h
                      cases hmi : takeDigits 2 cs8 with
                      | none => rw [hmi] at h; exact absurd h (by simp)
                      | some pmi =>
                        rw [hmi] at h
                        obtain ⟨mic, cs9⟩ := pmi
                        simp only [Option.bind_eq_bind, Option.some_bind] at h
                        cases h5 : expectChar ':' cs9 with
                        | none => rw [h5] at h; exact absurd h (by simp)
                        | some cs10 =>
                          rw [h5] at h
                          simp only [Option.bind_eq_bind, Option.some_bind] at h
                          cases hs : takeDigits 2 cs10 with
                          | none => rw [hs] at h; exact absurd h (by simp)
                          | some ps =>
                            rw [hs] at h
                            obtain ⟨sc, cs11⟩ := ps
                            simp only [Option.bind_eq_bind, Option.some_bind] at h
                            cases h6 : expectChars ['+', '0', '0', ':', '0', '0'] cs11 with
                            | none => rw [h6] at h; exact absurd h (by simp)
                            | some cs12 =>
                              rw [h6] at h
                              simp only [Option.bind_eq_bind, Option.some_bind] at h
                              split at h
                              · rename_i hcond2
                                simp only [Option.some.injEq] at h
                                obtain ⟨eyc, lyc, dyc⟩ := takeDigits_spec 4 cs yc cs1 hy
                                obtain ⟨ya, yb, yc3, yd, hyl⟩ := list_len4 yc lyc
                                obtain ⟨emc, lmc, dmc⟩ := takeDigits_spec 2 cs2 mc cs3 hm
                                obtain ⟨ma, mb, hml⟩ := list_len2 mc lmc
                                obtain ⟨edc, ldc, ddc⟩ := takeDigits_spec 2 cs4 dc (c5 :: cs5') hd
                                obtain ⟨da, db, hdl⟩ := list_len2 dc ldc
                                obtain ⟨ehc, lhc, dhc⟩ := takeDigits_spec 2 cs6 hc cs7 hh
                                obtain ⟨hca, hcb, hhl⟩ := list_len2 hc lhc
                                obtain ⟨emic, lmic, dmic⟩ := takeDigits_spec 2 cs8 mic cs9 hmi
                                obtain ⟨mia, mib, hmil⟩ := list_len2 mic lmic
                                obtain ⟨esc, lsc, dsc⟩ := takeDigits_spec 2 cs10 sc cs11 hs
                                obtain ⟨sa, sb, hsl⟩ := list_len2 sc lsc
                                have e1 := expectChar_spec '-' cs1 cs2 h1
                                have e2 := expectChar_spec '-' cs3 cs4 h2
                                have e3 := expectChar_spec 'T' (c5 :: cs5') cs6 h3
                                have e4 := expectChar_spec ':' cs7 cs8 h4
                                have e5 := expectChar_spec ':' cs9 cs10 h5
                                have e6 := expectChars_spec ['+', '0', '0', ':', '0', '0'] cs11 cs12 h6
                                subst h
                                simp only [isoChars, dateChars, timeChars, if_pos rfl]
                                rw [hyl, hml, hdl, hhl, hmil, hsl]
                                rw [pad4_digitsToNat ya yb yc3 yd (dyc ya (by rw [hyl]; simp))
                                  (dyc yb (by rw [hyl]; simp)) (dyc yc3 (by rw [hyl]; simp))
                                  (dyc yd (by rw [hyl]; simp))]
                                rw [pad2_digitsToNat ma mb (dmc ma (by rw [hml]; simp))
                                  (dmc mb (by rw [hml]; simp))]
                                rw [pad2_digitsToNat da db (ddc da (by rw [hdl]; simp))
                                  (ddc db (by rw [hdl]; simp))]
                                rw [pad2_digitsToNat hca hcb (dhc hca (by rw [hhl]; simp))
                                  (dhc hcb (by rw [hhl]; simp))]
                                rw [pad2_digitsToNat mia mib (dmic mia (by rw [hmil]; simp))
                                  (dmic mib (by rw [hmil]; simp))]
                                rw [pad2_digitsToNat sa sb (dsc sa (by rw [hsl]; simp))
                                  (dsc sb (by rw [hsl]; simp))]
                                obtain ⟨hce, _⟩ := hcond2
                                rw [eyc, hyl, e1, emc, hml, e2, edc, hdl]
                                rw [e3, ehc, hhl, e4, emic, hmil, e5, esc, hsl, e6, hce]
                                simp
                              · exact absurd h (by simp)
            · exact absurd h (by simp)

theorem atEndAnchor_spec (cs : List Char) (h : atEndAnchor cs = true) :
    cs = [] ∨ cs = ['\n'] := by
  simpa [atEndAnchor] using h

theorem matchTimePart_spec (cs t rest : List Char) (h : matchTimePart cs = some (t, rest)) :
    cs = t ++ rest := by
  simp only [matchTimePart] at h
  split at h
  · rename_i cs1
    simp only [Option.bind_eq_bind] at h
    cases hh : takeDigits 2 cs1 with
    | none => rw [hh] at h; exact absurd h (by simp)
    | some ph =>
      rw [hh] at h
      obtain ⟨hc, cs2⟩ := ph
      simp only [Option.some_bind] at h
      cases h1 : expectChar ':' cs2 with
      | none => rw [h1] at h; exact absurd h (by simp)
      | some cs3 =>
        rw [h1] at h
        simp only [Option.some_bind] at h
        cases hm : takeDigits 2 cs3 with
        | none => rw [hm] at h; exact absurd h (by simp)
        | some pm =>
          rw [hm] at h
          obtain ⟨mic, cs4⟩ := pm
          simp only [Option.some_bind] at h
          cases h2 : expectChar ':' cs4 with
          | none => rw [h2] at h; exact absurd h (by simp)
          | some cs5 =>
            rw [h2] at h
            simp only [Option.some_bind] at h
            cases hsd : takeDigits 2 cs5 with
            | none => rw [hsd] at h; exact absurd h (by simp)
            | some psd =>
              rw [hsd] at h
              obtain ⟨sc, cs6⟩ := psd
              simp only [Option.some_bind] at h
              cases h3 : expectChars ['+', '0', '0', ':', '0', '0'] cs6 with
              | none => rw [h3] at h; exact absurd h (by simp)
              | some cs7 =>
                rw [h3] at h
                simp only [Option.some_bind, Option.some.injEq, Prod.mk.injEq] at h
                obtain ⟨rfl, rfl⟩ := h
                obtain ⟨e1, _, _⟩ := takeDigits_spec 2 cs1 hc cs2 hh
                have e2 := expectChar_spec ':' cs2 cs3 h1
                obtain ⟨e3, _, _⟩ := takeDigits_spec 2 cs3 mic cs4 hm
                have e4 := expectChar_spec ':' cs4 cs5 h2
                obtain ⟨e5, _, _⟩ := takeDigits_spec 2 cs5 sc cs6 hsd
                have e6 := expectChars_spec ['+', '0', '0', ':', '0', '0'] cs6 cs7 h3
                rw [e1, e2, e3, e4, e5, e6]
                simp
  · exact absurd h (by simp)

/-- Inversion of the pattern matcher: the input decomposes into the dt
group, an optional separator-and-oid half, and what the `$` anchor
tolerates; a matched oid group has exactly 24 characters. -/
theorem patternMatch_spec (s : String) (m : IncrementalIdMatch)
    (h : IncrementalId.patternMatch s = some m) :
    ∃ tail, (tail = [] ∨ tail = ['\n']) ∧
      s.toList = m.dtChars
        ++ (match m.oidChars with | some oid => '|' :: oid | Option.none => []) ++ tail ∧
      (∀ oid, m.oidChars = some oid → oid.length = 24) := by
  simp only [IncrementalId.patternMatch, Option.bind_eq_bind] at h
  cases hy : takeDigits 4 s.toList with
  | none => rw [hy] at h; exact absurd h (by simp)
  | some py =>
    rw [hy] at h
    obtain ⟨yc, cs1⟩ := py
    simp only [Option.some_bind] at h
    cases h1 : expectChar '-' cs1 with
    | none => rw [h1] at h; exact absurd h (by simp)
    | some cs2 =>
      rw [h1] at h
      simp only [Option.some_bind] at h
      cases hm2 : takeDigits 2 cs2 with
      | none => rw [hm2] at h; exact absurd h (by simp)
      | some pm =>
        rw [hm2] at h
        obtain ⟨mc, cs3⟩ := pm
        simp only [Option.some_bind] at h
        cases h2 : expectChar '-' cs3 with
        | none => rw [h2] at h; exact absurd h (by simp)
        | some cs4 =>
          rw [h2] at h
          simp only [Option.some_bind] at h
          cases hd : takeDigits 2 cs4 with
          | none => rw [hd] at h; exact absurd h (by simp)
          | some pd =>
            rw [hd] at h
            obtain ⟨dc, cs5⟩ := pd
            simp only [Option.some_bind] at h
            obtain ⟨ey, _, _⟩ := takeDigits_spec 4 s.toList yc cs1 hy
            have e1 := expectChar_spec '-' cs1 cs2 h1
            obtain ⟨em, _, _⟩ := takeDigits_spec 2 cs2 mc cs3 hm2
            have e2 := expectChar_spec '-' cs3 cs4 h2
            obtain ⟨ed, _, _⟩ := takeDigits_spec 2 cs4 dc cs5 hd
            have hsplit : s.toList = (yc ++ '-' :: (mc ++ '-' :: dc)) ++ cs5 := by
              rw [ey, e1, em, e2, ed]
              simp
            split at h
            · rename_i t cs6 htp
              have et := matchTimePart_spec cs5 t cs6 htp
              split at h
              · rename_i cs7
                cases ho : takeLowerHex 24 cs7 with
                | none => rw [ho] at h; exact absurd h (by simp)
                | some po =>
                  rw [ho] at h
                  obtain ⟨oid, cs8⟩ := po
                  simp only [Option.some_bind] at h
                  split at h
                  · rename_i hend
                    cases h
                    obtain ⟨eo, lo⟩ := takeLowerHex_spec 24 cs7 oid cs8 ho
                    refine ⟨cs8, atEndAnchor_spec cs8 hend, ?_,
                      by intro o ho2; cases ho2; exact lo⟩
                    simp only []
                    rw [hsplit, et, eo]
                    simp
                  · exact absurd h (by simp)
              · split at h
                · rename_i hend
                  cases h
                  refine ⟨cs6, atEndAnchor_spec cs6 hend, ?_, by simp⟩
                  simp only []
                  rw [hsplit, et]
                  simp
                · exact absurd h (by simp)
            · rename_i htp
              split at h
              · rename_i cs7
                cases ho : takeLowerHex 24 cs7 with
                | none => rw [ho] at h; exact absurd h (by simp)
                | some po =>
                  rw [ho] at h
                  obtain ⟨oid, cs8⟩ := po
                  simp only [Option.some_bind] at h
                  split at h
                  · rename_i hend
                    cases h
                    obtain ⟨eo, lo⟩ := takeLowerHex_spec 24 cs7 oid cs8 ho
                    refine ⟨cs8, atEndAnchor_spec cs8 hend, ?_,
                      by intro o ho2; cases ho2; exact lo⟩
                    simp only []
                    rw [hsplit, eo]
                    simp
                  · exact absurd h (by simp)
              · split at h
                · rename_i hend
                  cases h
                  refine ⟨cs5, atEndAnchor_spec cs5 hend, ?_, by simp⟩
                  simp only []
                  rw [hsplit]
                  simp
                · exact absurd h (by simp)

theorem hexDigitChar_mod (n : Nat) : hexDigitChar (n % 16) = hexDigitChar n := by
  unfold hexDigitChar
  rw [show n % 16 % 16 = n % 16 by omega]

theorem hexVal?_hexDigitChar (n : Nat) (h : n < 16) : hexVal? (hexDigitChar n) = some n := by
  interval_cases n <;> decide

theorem hexPairsToBytes_round (bs : List Nat) (h : ∀ b ∈ bs, b < 256) :
    hexPairsToBytes (bytesHexChars bs) = some bs := by
  induction bs with
  | nil => rfl
  | cons b rest ih =>
    have hb : b < 256 := h b (List.mem_cons_self b rest)
    show hexPairsToBytes (hexDigitChar (b / 16) :: hexDigitChar b :: bytesHexChars rest) = _
    simp only [hexPairsToBytes, Option.bind_eq_bind]
    rw [hexVal?_hexDigitChar (b / 16) (by omega)]
    rw [← hexDigitChar_mod b, hexVal?_hexDigitChar (b % 16) (by omega)]
    simp only [Option.some_bind]
    rw [ih (fun x hx => h x (List.mem_cons_of_mem b hx))]
    simp only [Option.some_bind, Option.some.injEq, List.cons.injEq]
    exact ⟨by omega, trivial⟩

theorem bytesHexChars_length (bs : List Nat) :
    (bytesHexChars bs).length = 2 * bs.length := by
  induction bs with
  | nil => rfl
  | cons b rest ih =>
    show (byteHexChars b ++ bytesHexChars rest).length = _
    simp [byteHexChars, ih]
    omega

theorem ObjectId.ofHex_str (o : ObjectId) (h : o.wf) : ObjectId.ofHex o.str = some o := by
  obtain ⟨hlen, hlt⟩ := h
  unfold ObjectId.ofHex
  rw [if_pos (show (ObjectId.str o).length = 24 by
    show (bytesHexChars o.bytes).length = 24
    rw [bytesHexChars_length, hlen])]
  show (hexPairsToBytes (bytesHexChars o.bytes)).map ObjectId.mk = some o
  rw [hexPairsToBytes_round o.bytes hlt]
  rfl

/-- Counterexample to claim C3 as stated: the date-only string
`2021-09-22` is matched by the pattern and parsed by `from_string`, yet
its round trip renders the time component, giving a different string. -/
theorem C3_roundtrip_counterexample :
    (IncrementalId.from_string "2021-09-22").map IncrementalId.toStr
        = some "2021-09-22T00:00:00" ∧
      ("2021-09-22T00:00:00" : String) ≠ "2021-09-22" := by
  constructor
  · rfl
  · decide

/-- Claim C3 as amended: the string round trip holds for every pattern
string whose datetime half carries the time component (date-only
strings gain a rendered midnight time, and the `$` anchor tolerates one
trailing newline that the render drops); and every ObjectId round-trips
through `from_object_id` and the `object_id` property. -/
theorem C3_incremental_id_roundtrip :
    (∀ s i, IncrementalId.from_string s = some i → i.dt.tzUtc = true →
      s.toList.getLast? ≠ some '\n' → IncrementalId.toStr i = s) ∧
    (∀ o : ObjectId, o.wf → (IncrementalId.from_object_id o).object_id = some o) := by
  constructor
  · intro s i hfs htz hnl
    simp only [IncrementalId.from_string, Option.bind_eq_bind] at hfs
    cases hpm : IncrementalId.patternMatch s with
    | none => rw [hpm] at hfs; exact absurd hfs (by simp)
    | some m =>
      rw [hpm] at hfs
      simp only [Option.some_bind] at hfs
      cases hfi : fromisoformatModel m.dtChars with
      | none => rw [hfi] at hfs; exact absurd hfs (by simp)
      | some d =>
        rw [hfi] at hfs
        simp only [Option.some_bind, Option.some.injEq] at hfs
        obtain ⟨tail, htail, hsplit, hlen⟩ := patternMatch_spec s m hpm
        subst hfs
        have hiso := fromisoformatModel_utc_inv m.dtChars d hfi htz
        have htail2 : tail = [] := by
          rcases htail with ht | ht
          · exact ht
          · exfalso
            apply hnl
            rw [hsplit, ht]
            simp
        subst htail2
        obtain ⟨data⟩ := s
        have hd2 : data = m.dtChars
            ++ (match m.oidChars with | some oid => '|' :: oid | Option.none => []) ++ [] :=
          hsplit
        cases hoid : m.oidChars with
        | none =>
          unfold IncrementalId.toStr
          simp only [hoid, Option.map_none']
          refine congrArg String.mk ?_
          rw [hiso, hd2, hoid]
          simp
        | some oid =>
          unfold IncrementalId.toStr
          simp only [hoid, Option.map_some']
          have hne : String.mk oid ≠ "" := by
            intro hcon
            have hnil := congrArg String.data hcon
            simp at hnil
            have h24 := hlen oid hoid
            rw [hnil] at h24
            simp at h24
          rw [if_neg hne]
          refine congrArg String.mk ?_
          rw [hiso, hd2, hoid]
          simp
  · intro o hwf
    show ObjectId.ofHex o.str = some o
    exact ObjectId.ofHex_str o hwf

/-- Witness for C3: the full-form string of the repository tests and a
concrete well-formed ObjectId. -/
theorem C3_incremental_id_roundtrip_witness :
    IncrementalId.toStr
        ⟨⟨2021, 9, 22, 1, 2, 48, true⟩, some "614a80b81ad8c60001b7d5f3"⟩
        = "2021-09-22T01:02:48+00:00|614a80b81ad8c60001b7d5f3" ∧
      (IncrementalId.from_object_id
          ⟨[97, 74, 128, 184, 26, 216, 198, 0, 1, 183, 213, 243]⟩).object_id
        = some ⟨[97, 74, 128, 184, 26, 216, 198, 0, 1, 183, 213, 243]⟩ :=
  ⟨C3_incremental_id_roundtrip.1
      "2021-09-22T01:02:48+00:00|614a80b81ad8c60001b7d5f3"
      ⟨⟨2021, 9, 22, 1, 2, 48, true⟩, some "614a80b81ad8c60001b7d5f3"⟩
      rfl rfl (by decide),
   C3_incremental_id_roundtrip.2 ⟨[97, 74, 128, 184, 26, 216, 198, 0, 1, 183, 213, 243]⟩
      (by decide)⟩

/-! Lexicographic order helpers for the sortability claim. -/

theorem lex_append_same {α : Type} {r : α → α → Prop} (l t1 t2 : List α)
    (h : List.Lex r t1 t2) : List.Lex r (l ++ t1) (l ++ t2) := by
  induction l with
  | nil => exact h
  | cons c rest ih => exact List.Lex.cons ih

theorem lex_append_of_lex {α : Type} {r : α → α → Prop} (l1 l2 t1 t2 : List α)
    (hlen : l1.length = l2.length) (h : List.Lex r l1 l2) :
    List.Lex r (l1 ++ t1) (l2 ++ t2) := by
  revert hlen
  induction h generalizing t1 t2 with
  | nil => intro hlen; exact absurd hlen (by simp)
  | rel hr => intro _; exact List.Lex.rel hr
  | cons h2 ih => intro hlen; exact List.Lex.cons (ih t1 t2 (by simpa using hlen))

theorem digitChar_lt (a b : Nat) (hab : a < b) (hb : b ≤ 9) :
    digitChar a < digitChar b := by
  have key : ∀ b2 < 10, ∀ a2 < b2, digitChar a2 < digitChar b2 := by decide
  exact key b (by omega) a hab

theorem hexDigitChar_lt (a b : Nat) (hab : a < b) (hb : b ≤ 15) :
    hexDigitChar a < hexDigitChar b := by
  have key : ∀ b2 < 16, ∀ a2 < b2, hexDigitChar a2 < hexDigitChar b2 := by decide
  exact key b (by omega) a hab

theorem pad2_lt (a b : Nat) (hab : a < b) (hb : b < 100) :
    List.Lex (· < ·) (pad2 a) (pad2 b) := by
  unfold pad2
  by_cases h10 : a / 10 = b / 10
  · rw [h10]
    refine List.Lex.cons (List.Lex.rel ?_)
    rw [← digitChar_mod a, ← digitChar_mod b]
    exact digitChar_lt (a % 10) (b % 10) (by omega) (by omega)
  · refine List.Lex.rel ?_
    rw [← digitChar_mod (a / 10), ← digitChar_mod (b / 10)]
    exact digitChar_lt (a / 10 % 10) (b / 10 % 10) (by omega) (by omega)

theorem pad2_mod (n : Nat) : pad2 (n % 100) = pad2 n := by
  unfold pad2
  rw [← digitChar_mod (n % 100 / 10), ← digitChar_mod (n / 10),
    show n % 100 / 10 % 10 = n / 10 % 10 by omega]
  rw [← digitChar_mod (n % 100), ← digitChar_mod n, show n % 100 % 10 = n % 10 by omega]

theorem pad4_lt (a b : Nat) (hab : a < b) (hb : b < 10000) :
    List.Lex (· < ·) (pad4 a) (pad4 b) := by
  unfold pad4
  by_cases h100 : a / 100 = b / 100
  · rw [h100]
    apply lex_append_same
    rw [← pad2_mod a, ← pad2_mod b]
    exact pad2_lt (a % 100) (b % 100) (by omega) (by omega)
  · exact lex_append_of_lex _ _ _ _ rfl (pad2_lt (a / 100) (b / 100) (by omega) (by omega))

theorem byteHexChars_lt (a b : Nat) (hab : a < b) (hb : b < 256) :
    List.Lex (· < ·) (byteHexChars a) (byteHexChars b) := by
  unfold byteHexChars
  by_cases h16 : a / 16 = b / 16
  · rw [h16]
    refine List.Lex.cons (List.Lex.rel ?_)
    rw [← hexDigitChar_mod a, ← hexDigitChar_mod b]
    exact hexDigitChar_lt (a % 16) (b % 16) (by omega) (by omega)
  · refine List.Lex.rel ?_
    rw [← hexDigitChar_mod (a / 16), ← hexDigitChar_mod (b / 16)]
    exact hexDigitChar_lt (a / 16 % 16) (b / 16 % 16) (by omega) (by omega)

theorem bytesHexChars_append (l1 l2 : List Nat) :
    bytesHexChars (l1 ++ l2) = bytesHexChars l1 ++ bytesHexChars l2 := by
  induction l1 with
  | nil => rfl
  | cons b rest ih =>
    show byteHexChars b ++ bytesHexChars (rest ++ l2) = _
    rw [ih]
    simp [bytesHexChars]

theorem bytesHexChars_lt (l1 l2 : List Nat) (h256 : ∀ x ∈ l2, x < 256)
    (h : List.Lex (· < ·) l1 l2) :
    List.Lex (· < ·) (bytesHexChars l1) (bytesHexChars l2) := by
  induction h with
  | nil =>
    rename_i b bs
    exact List.Lex.nil
  | rel hr =>
    rename_i a2 l1' b2 l2'
    exact lex_append_of_lex _ _ _ _ rfl
      (byteHexChars_lt a2 b2 hr (h256 b2 (List.mem_cons_self b2 l2')))
  | cons h2 ih =>
    rename_i a2 l1' l2'
    exact lex_append_same _ _ _ (ih (fun x hx => h256 x (List.mem_cons_of_mem a2 hx)))

/-! Monotonicity of the calendar conversion. -/

theorem daysInYear_ge (y : Nat) : 365 ≤ daysInYear y := by
  unfold daysInYear
  split <;> omega

theorem daysInYear_cases (y : Nat) : daysInYear y = 365 ∨ daysInYear y = 366 := by
  unfold daysInYear
  split <;> simp

theorem yearFromAux_fst_ge (fuel y n : Nat) : y ≤ (yearFromAux fuel y n).1 := by
  induction fuel generalizing y n with
  | zero => simp [yearFromAux]
  | succ f ih =>
    unfold yearFromAux
    split
    · simp
    · exact le_trans (by omega) (ih (y + 1) (n - daysInYear y))

theorem yearFromAux_fst_le (fuel y n : Nat) : (yearFromAux fuel y n).1 ≤ y + n / 365 := by
  induction fuel generalizing y n with
  | zero => simp [yearFromAux]
  | succ f ih =>
    unfold yearFromAux
    split
    · simp
    · rename_i hd
      have h2 := ih (y + 1) (n - daysInYear y)
      rcases daysInYear_cases y with hc | hc <;> rw [hc] at h2 hd ⊢ <;> omega

theorem yearFromAux_snd_lt (fuel y n : Nat) (h : n ≤ fuel) :
    (yearFromAux fuel y n).2 < daysInYear (yearFromAux fuel y n).1 := by
  induction fuel generalizing y n with
  | zero =>
    have hn : n = 0 := by omega
    subst hn
    have := daysInYear_ge y
    simp [yearFromAux]
    omega
  | succ f ih =>
    unfold yearFromAux
    split
    · rename_i hd
      simpa using hd
    · have := daysInYear_ge y
      exact ih (y + 1) (n - daysInYear y) (by omega)

theorem yearFromAux_lex_mono (fuel y n1 n2 : Nat) (h : n1 < n2) :
    (yearFromAux fuel y n1).1 < (yearFromAux fuel y n2).1 ∨
      ((yearFromAux fuel y n1).1 = (yearFromAux fuel y n2).1 ∧
        (yearFromAux fuel y n1).2 < (yearFromAux fuel y n2).2) := by
  induction fuel generalizing y n1 n2 with
  | zero => simp [yearFromAux]; omega
  | succ f ih =>
    by_cases h1 : n1 < daysInYear y
    · by_cases h2 : n2 < daysInYear y
      · simp [yearFromAux, h1, h2]
        omega
      · refine Or.inl ?_
        unfold yearFromAux
        rw [if_pos h1, if_neg h2]
        have := yearFromAux_fst_ge f (y + 1) (n2 - daysInYear y)
        simp
        omega
    · have h2 : ¬ n2 < daysInYear y := by omega
      unfold yearFromAux
      rw [if_neg h1, if_neg h2]
      exact ih (y + 1) (n1 - daysInYear y) (n2 - daysInYear y)
        (by have := daysInYear_ge y; omega)

theorem yearFromAux_fuel (f1 f2 y n : Nat) (h1 : n ≤ f1) (h2 : n ≤ f2) :
    yearFromAux f1 y n = yearFromAux f2 y n := by
  induction f1 generalizing f2 y n with
  | zero =>
    have hn : n = 0 := by omega
    subst hn
    cases f2 with
    | zero => rfl
    | succ f2b =>
      show (y, 0) = yearFromAux (f2b + 1) y 0
      unfold yearFromAux
      rw [if_pos (by have := daysInYear_ge y; omega)]
  | succ f1b ih =>
    cases f2 with
    | zero =>
      have hn : n = 0 := by omega
      subst hn
      show yearFromAux (f1b + 1) y 0 = (y, 0)
      unfold yearFromAux
      rw [if_pos (by have := daysInYear_ge y; omega)]
    | succ f2b =>
      show (if n < daysInYear y then (y, n) else yearFromAux f1b (y + 1) (n - daysInYear y))
        = (if n < daysInYear y then (y, n) else yearFromAux f2b (y + 1) (n - daysInYear y))
      by_cases hd : n < daysInYear y
      · rw [if_pos hd, if_pos hd]
      · rw [if_neg hd, if_neg hd]
        have := daysInYear_ge y
        exact ih f2b (y + 1) (n - daysInYear y) (by omega) (by omega)

theorem yearFrom_lex_mono (y n1 n2 : Nat) (h : n1 < n2) :
    (yearFrom y n1).1 < (yearFrom y n2).1 ∨
      ((yearFrom y n1).1 = (yearFrom y n2).1 ∧ (yearFrom y n1).2 < (yearFrom y n2).2) := by
  unfold yearFrom
  rw [yearFromAux_fuel (n1 + 1) (n2 + 1) y n1 (by omega) (by omega)]
  exact yearFromAux_lex_mono (n2 + 1) y n1 n2 h

theorem monthFromAux_fst_ge (leap : Bool) (fuel m doy : Nat) :
    m ≤ (monthFromAux leap fuel m doy).1 := by
  induction fuel generalizing m doy with
  | zero => simp [monthFromAux]
  | succ f ih =>
    unfold monthFromAux
    split
    · simp
    · exact le_trans (by omega) (ih (m + 1) (doy - daysInMonth leap m))

theorem monthFromAux_lex_mono (leap : Bool) (fuel m d1 d2 : Nat) (h : d1 < d2) :
    (monthFromAux leap fuel m d1).1 < (monthFromAux leap fuel m d2).1 ∨
      ((monthFromAux leap fuel m d1).1 = (monthFromAux leap fuel m d2).1 ∧
        (monthFromAux leap fuel m d1).2 < (monthFromAux leap fuel m d2).2) := by
  induction fuel generalizing m d1 d2 with
  | zero => simp [monthFromAux]; omega
  | succ f ih =>
    by_cases h1 : d1 < daysInMonth leap m
    · by_cases h2 : d2 < daysInMonth leap m
      · simp [monthFromAux, h1, h2]
        omega
      · refine Or.inl ?_
        unfold monthFromAux
        rw [if_pos h1, if_neg h2]
        have := monthFromAux_fst_ge leap f (m + 1) (d2 - daysInMonth leap m)
        simp
        omega
    · have h2 : ¬ d2 < daysInMonth leap m := by omega
      unfold monthFromAux
      rw [if_neg h1, if_neg h2]
      refine ih (m + 1) (d1 - daysInMonth leap m) (d2 - daysInMonth leap m) ?_
      have : 28 ≤ daysInMonth leap m := by
        unfold daysInMonth
        split
        · split <;> omega
        · split <;> omega
      omega

theorem monthFrom_lex_mono (leap : Bool) (d1 d2 : Nat) (h : d1 < d2) :
    (monthFrom leap d1).1 < (monthFrom leap d2).1 ∨
      ((monthFrom leap d1).1 = (monthFrom leap d2).1 ∧
        (monthFrom leap d1).2 < (monthFrom leap d2).2) :=
  monthFromAux_lex_mono leap 11 1 d1 d2 h

theorem monthFrom_bounds_false (doy : Nat) (h : doy < 365) :
    (monthFrom false doy).1 ≤ 12 ∧ (monthFrom false doy).2 < 31 := by
  have key : ∀ d2 < 365, (monthFrom false d2).1 ≤ 12 ∧ (monthFrom false d2).2 < 31 := by decide
  exact key doy h

theorem monthFrom_bounds_true (doy : Nat) (h : doy < 366) :
    (monthFrom true doy).1 ≤ 12 ∧ (monthFrom true doy).2 < 31 := by
  have key : ∀ d2 < 366, (monthFrom true d2).1 ≤ 12 ∧ (monthFrom true d2).2 < 31 := by decide
  exact key doy h

theorem monthFrom_bounds (leap : Bool) (y : Nat) (doy : Nat)
    (hleap : leap = isLeapYear y) (h : doy < daysInYear y) :
    (monthFrom leap doy).1 ≤ 12 ∧ (monthFrom leap doy).2 < 31 := by
  subst hleap
  unfold daysInYear at h
  by_cases hl : isLeapYear y = true
  · rw [hl] at h ⊢
    exact monthFrom_bounds_true doy (by simpa [hl] using h)
  · have hl2 : isLeapYear y = false := by simpa using hl
    rw [hl2] at h ⊢
    exact monthFrom_bounds_false doy (by simpa [hl2] using h)

theorem lex_field_step (seg1 seg2 : List Char) (c : Char) (t1 t2 : List Char)
    (hlen : seg1.length = seg2.length)
    (h : List.Lex (· < ·) seg1 seg2 ∨ (seg1 = seg2 ∧ List.Lex (· < ·) t1 t2)) :
    List.Lex (· < ·) (seg1 ++ c :: t1) (seg2 ++ c :: t2) := by
  rcases h with h | ⟨rfl, h⟩
  · exact lex_append_of_lex _ _ _ _ hlen h
  · exact lex_append_same _ _ _ (List.Lex.cons h)

theorem timeChars_lt (s1 s2 : Nat) (h : s1 < s2) (h2 : s2 < 86400) :
    List.Lex (· < ·)
      (timeChars (s1 / 3600) (s1 % 3600 / 60) (s1 % 60))
      (timeChars (s2 / 3600) (s2 % 3600 / 60) (s2 % 60)) := by
  unfold timeChars
  simp only [List.append_assoc, List.cons_append]
  by_cases hh : s1 / 3600 = s2 / 3600
  · rw [hh]
    refine lex_field_step _ _ _ _ _ rfl (Or.inr ⟨rfl, ?_⟩)
    by_cases hm : s1 % 3600 / 60 = s2 % 3600 / 60
    · rw [hm]
      refine lex_field_step _ _ _ _ _ rfl (Or.inr ⟨rfl, ?_⟩)
      exact pad2_lt (s1 % 60) (s2 % 60) (by omega) (by omega)
    · exact lex_field_step _ _ _ _ _ rfl
        (Or.inl (pad2_lt (s1 % 3600 / 60) (s2 % 3600 / 60) (by omega) (by omega)))
  · exact lex_field_step _ _ _ _ _ rfl
      (Or.inl (pad2_lt (s1 / 3600) (s2 / 3600) (by omega) (by omega)))

theorem dateChars_lt (y1 m1 d1 y2 m2 d2 : Nat)
    (hy2 : y2 < 10000) (hm2 : m2 < 100) (hd2 : d2 < 100)
    (hlex : y1 < y2 ∨ (y1 = y2 ∧ (m1 < m2 ∨ (m1 = m2 ∧ d1 < d2)))) :
    List.Lex (· < ·) (dateChars y1 m1 d1) (dateChars y2 m2 d2) := by
  unfold dateChars
  simp only [List.append_assoc, List.cons_append]
  rcases hlex with hy | ⟨rfl, hm | ⟨rfl, hd⟩⟩
  · exact lex_field_step _ _ _ _ _ rfl (Or.inl (pad4_lt y1 y2 hy hy2))
  · refine lex_field_step _ _ _ _ _ rfl (Or.inr ⟨rfl, ?_⟩)
    exact lex_field_step _ _ _ _ _ rfl (Or.inl (pad2_lt m1 m2 hm hm2))
  · refine lex_field_step _ _ _ _ _ rfl (Or.inr ⟨rfl, ?_⟩)
    refine lex_field_step _ _ _ _ _ rfl (Or.inr ⟨rfl, ?_⟩)
    exact pad2_lt d1 d2 hd hd2

/-- The rendered datetime of a smaller 32-bit timestamp is strictly
smaller lexicographically. -/
theorem isoChars_timestamp_lt (t1 t2 : Nat) (h : t1 < t2) (hb : t2 < 4294967296) :
    List.Lex (· < ·)
      (isoChars (datetimeFromTimestamp t1)) (isoChars (datetimeFromTimestamp t2)) := by
  have hy1le : (yearFrom 1970 (t1 / 86400)).1 ≤ 1970 + t1 / 86400 / 365 :=
    yearFromAux_fst_le (t1 / 86400 + 1) 1970 (t1 / 86400)
  have hy2le : (yearFrom 1970 (t2 / 86400)).1 ≤ 1970 + t2 / 86400 / 365 :=
    yearFromAux_fst_le (t2 / 86400 + 1) 1970 (t2 / 86400)
  have hdoy1 : (yearFrom 1970 (t1 / 86400)).2
      < daysInYear (yearFrom 1970 (t1 / 86400)).1 :=
    yearFromAux_snd_lt (t1 / 86400 + 1) 1970 (t1 / 86400) (by omega)
  have hdoy2 : (yearFrom 1970 (t2 / 86400)).2
      < daysInYear (yearFrom 1970 (t2 / 86400)).1 :=
    yearFromAux_snd_lt (t2 / 86400 + 1) 1970 (t2 / 86400) (by omega)
  have hmb1 := monthFrom_bounds (isLeapYear (yearFrom 1970 (t1 / 86400)).1)
    (yearFrom 1970 (t1 / 86400)).1 (yearFrom 1970 (t1 / 86400)).2 rfl hdoy1
  have hmb2 := monthFrom_bounds (isLeapYear (yearFrom 1970 (t2 / 86400)).1)
    (yearFrom 1970 (t2 / 86400)).1 (yearFrom 1970 (t2 / 86400)).2 rfl hdoy2
  unfold datetimeFromTimestamp isoChars
  simp only [dateChars, timeChars, List.append_assoc, List.cons_append, if_true]
  by_cases hdays : t1 / 86400 = t2 / 86400
  · have hsec : t1 % 86400 < t2 % 86400 := by omega
    simp only [hdays]
    refine lex_field_step _ _ _ _ _ rfl (Or.inr ⟨rfl, ?_⟩)
    refine lex_field_step _ _ _ _ _ rfl (Or.inr ⟨rfl, ?_⟩)
    refine lex_field_step _ _ _ _ _ rfl (Or.inr ⟨rfl, ?_⟩)
    by_cases hh : t1 % 86400 / 3600 = t2 % 86400 / 3600
    · rw [hh]
      refine lex_field_step _ _ _ _ _ rfl (Or.inr ⟨rfl, ?_⟩)
      by_cases hm : t1 % 86400 % 3600 / 60 = t2 % 86400 % 3600 / 60
      · rw [hm]
        refine lex_field_step _ _ _ _ _ rfl (Or.inr ⟨rfl, ?_⟩)
        exact lex_append_of_lex _ _ _ _ rfl
          (pad2_lt (t1 % 86400 % 60) (t2 % 86400 % 60) (by omega) (by omega))
      · exact lex_field_step _ _ _ _ _ rfl
          (Or.inl (pad2_lt _ _ (by omega) (by omega)))
    · exact lex_field_step _ _ _ _ _ rfl
        (Or.inl (pad2_lt _ _ (by omega) (by omega)))
  · have hdlt : t1 / 86400 < t2 / 86400 := by omega
    have hylex := yearFrom_lex_mono 1970 (t1 / 86400) (t2 / 86400) hdlt
    rcases hylex with hy | ⟨hyeq, hdoy⟩
    · exact lex_field_step _ _ _ _ _ rfl (Or.inl (pad4_lt _ _ hy (by omega)))
    · rw [hyeq]
      refine lex_field_step _ _ _ _ _ rfl (Or.inr ⟨rfl, ?_⟩)
      have hmlex := monthFrom_lex_mono (isLeapYear (yearFrom 1970 (t2 / 86400)).1)
        (yearFrom 1970 (t1 / 86400)).2 (yearFrom 1970 (t2 / 86400)).2 hdoy
      rw [hyeq] at hmb1
      rcases hmlex with hm | ⟨hmeq, hd⟩
      · exact lex_field_step _ _ _ _ _ rfl (Or.inl (pad2_lt _ _ hm (by omega)))
      · rw [hmeq]
        refine lex_field_step _ _ _ _ _ rfl (Or.inr ⟨rfl, ?_⟩)
        exact lex_field_step _ _ _ _ _ rfl (Or.inl (pad2_lt _ _ (by omega) (by omega)))

theorem bytesToNat_lt_aux (bs : List Nat) (acc : Nat) (h : ∀ b ∈ bs, b < 256) :
    bs.foldl (fun a b => a * 256 + b) acc < (acc + 1) * 256 ^ bs.length := by
  induction bs generalizing acc with
  | nil => simp
  | cons b rest ih =>
    have hb : b < 256 := h b (List.mem_cons_self b rest)
    have h2 := ih (acc * 256 + b) (fun x hx => h x (List.mem_cons_of_mem b hx))
    calc (b :: rest).foldl (fun a b => a * 256 + b) acc
        = rest.foldl (fun a b => a * 256 + b) (acc * 256 + b) := rfl
      _ < (acc * 256 + b + 1) * 256 ^ rest.length := h2
      _ ≤ (acc + 1) * 256 ^ (b :: rest).length := by
          simp only [List.length_cons, pow_succ]
          have : acc * 256 + b + 1 ≤ (acc + 1) * 256 := by omega
          calc (acc * 256 + b + 1) * 256 ^ rest.length
              ≤ (acc + 1) * 256 * 256 ^ rest.length :=
                Nat.mul_le_mul_right _ this
            _ = (acc + 1) * (256 ^ rest.length * 256) := by ring

theorem ObjectId.timestamp_lt (o : ObjectId) (h : o.wf) :
    o.timestamp < 4294967296 := by
  obtain ⟨hlen, hbyte⟩ := h
  unfold ObjectId.timestamp bytesToNat
  have hsub : ∀ b ∈ o.bytes.take 4, b < 256 :=
    fun b hb => hbyte b (List.take_subset 4 o.bytes hb)
  have hlt := bytesToNat_lt_aux (o.bytes.take 4) 0 hsub
  have hl4 : (o.bytes.take 4).length ≤ 4 := by
    simp [List.length_take]
  have : 256 ^ (o.bytes.take 4).length ≤ 256 ^ 4 :=
    Nat.pow_le_pow_right (by omega) hl4
  simp only [one_mul] at hlt
  calc (o.bytes.take 4).foldl (fun a b => a * 256 + b) 0
      < 256 ^ (o.bytes.take 4).length := by simpa using hlt
    _ ≤ 256 ^ 4 := this
    _ = 4294967296 := by norm_num

theorem list_len4n (l : List Nat) (h : l.length = 4) :
    ∃ a b c d, l = [a, b, c, d] := by
  rcases l with _ | ⟨a, _ | ⟨b, _ | ⟨c, _ | ⟨d, _ | _⟩⟩⟩⟩ <;> simp_all

theorem bytesToNat_inj4 (x y : List Nat) (hx : x.length = 4) (hy : y.length = 4)
    (h256x : ∀ v ∈ x, v < 256) (h256y : ∀ v ∈ y, v < 256)
    (h : bytesToNat x = bytesToNat y) : x = y := by
  obtain ⟨a1, a2, a3, a4, rfl⟩ := list_len4n x hx
  obtain ⟨b1, b2, b3, b4, rfl⟩ := list_len4n y hy
  simp only [bytesToNat, List.foldl] at h
  have ha1 := h256x a1 (by simp)
  have ha2 := h256x a2 (by simp)
  have ha3 := h256x a3 (by simp)
  have ha4 := h256x a4 (by simp)
  have hb1 := h256y b1 (by simp)
  have hb2 := h256y b2 (by simp)
  have hb3 := h256y b3 (by simp)
  have hb4 := h256y b4 (by simp)
  simp only [List.cons.injEq, and_true]
  omega

theorem isoChars_timestamp_length (t : Nat) :
    (isoChars (datetimeFromTimestamp t)).length = 25 := by
  simp [isoChars, datetimeFromTimestamp, dateChars, timeChars, pad2, pad4]

/-- Claim C9: for ObjectIds ordered by generation time and then by their
remaining bytes, the fused IncrementalId strings compare the same way
under lexicographic string order. -/
theorem C9_incremental_id_sortable (a b : ObjectId) (ha : a.wf) (hb : b.wf)
    (hab : a.timestamp < b.timestamp ∨
      (a.timestamp = b.timestamp ∧ List.Lex (· < ·) (a.bytes.drop 4) (b.bytes.drop 4))) :
    (IncrementalId.from_object_id a).toStr < (IncrementalId.from_object_id b).toStr := by
  have hnea : ObjectId.str a ≠ "" := by
    intro hcon
    have hdata := congrArg String.data hcon
    have hlen := bytesHexChars_length a.bytes
    rw [ha.1] at hlen
    rw [show ("" : String).data = [] from rfl] at hdata
    rw [show (ObjectId.str a).data = bytesHexChars a.bytes from rfl] at hdata
    rw [hdata] at hlen
    simp at hlen
  have hneb : ObjectId.str b ≠ "" := by
    intro hcon
    have hdata := congrArg String.data hcon
    have hlen := bytesHexChars_length b.bytes
    rw [hb.1] at hlen
    rw [show ("" : String).data = [] from rfl] at hdata
    rw [show (ObjectId.str b).data = bytesHexChars b.bytes from rfl] at hdata
    rw [hdata] at hlen
    simp at hlen
  rw [String.lt_iff_toList_lt]
  have hla : (IncrementalId.toStr (IncrementalId.from_object_id a)).toList
      = isoChars (ObjectId.generation_time a) ++ '|' :: bytesHexChars a.bytes := by
    simp only [IncrementalId.toStr, IncrementalId.from_object_id]
    rw [if_neg hnea]
    rfl
  have hlb : (IncrementalId.toStr (IncrementalId.from_object_id b)).toList
      = isoChars (ObjectId.generation_time b) ++ '|' :: bytesHexChars b.bytes := by
    simp only [IncrementalId.toStr, IncrementalId.from_object_id]
    rw [if_neg hneb]
    rfl
  rw [hla, hlb]
  show List.Lex (· < ·) _ _
  rcases hab with hts | ⟨hts, hlex⟩
  · unfold ObjectId.generation_time
    refine lex_append_of_lex _ _ _ _ ?_ ?_
    · rw [isoChars_timestamp_length, isoChars_timestamp_length]
    · exact isoChars_timestamp_lt a.timestamp b.timestamp hts (ObjectId.timestamp_lt b hb)
  · have hgen : ObjectId.generation_time a = ObjectId.generation_time b := by
      unfold ObjectId.generation_time
      rw [hts]
    rw [hgen]
    apply lex_append_same
    apply List.Lex.cons
    have htake : a.bytes.take 4 = b.bytes.take 4 := by
      refine bytesToNat_inj4 _ _ ?_ ?_ ?_ ?_ hts
      · rw [List.length_take, ha.1]
        rfl
      · rw [List.length_take, hb.1]
        rfl
      · exact fun v hv => ha.2 v (List.take_subset 4 a.bytes hv)
      · exact fun v hv => hb.2 v (List.take_subset 4 b.bytes hv)
    rw [show a.bytes = a.bytes.take 4 ++ a.bytes.drop 4 from (List.take_append_drop 4 a.bytes).symm]
    rw [show b.bytes = b.bytes.take 4 ++ b.bytes.drop 4 from (List.take_append_drop 4 b.bytes).symm]
    rw [bytesHexChars_append, bytesHexChars_append, htake]
    apply lex_append_same
    exact bytesHexChars_lt _ _ (fun x hx => hb.2 x (List.drop_subset 4 b.bytes hx)) hlex

/-- Witness for C9: the all-zero ObjectId against the ObjectId of the
repository tests, which has a larger generation time. -/
theorem C9_incremental_id_sortable_witness :
    (IncrementalId.from_object_id ⟨[0, 0, 0, 0, 0, 0, 0, 0, 0, 0, 0, 0]⟩).toStr
      < (IncrementalId.from_object_id
          ⟨[97, 74, 128, 184, 26, 216, 198, 0, 1, 183, 213, 243]⟩).toStr :=
  C9_incremental_id_sortable ⟨[0, 0, 0, 0, 0, 0, 0, 0, 0, 0, 0, 0]⟩
    ⟨[97, 74, 128, 184, 26, 216, 198, 0, 1, 183, 213, 243]⟩
    (by decide) (by decide) (Or.inl (by decide))

end TapMongo
